import Mathlib

/-!
Verification of the propositional-logic engine in `config.js`
(class `PropositionAnalyzer`).

Shallow embedding conventions:
* JS strings are Lean `String`s; character-level scans work on `List Char`.
* JS exceptions (`throw new Error(...)`) are modelled with `Except`:
  a `.error` value is an exception propagating out of the function.
* JS objects used as string-keyed maps (`variableValues`) are modelled as
  functions `String → Option Bool`; `undefined` is `none` (note that in JS,
  a key stored with value `undefined` is observationally identical to an
  absent key for this program, since the evaluator tests `!== undefined`).
* Scores computed with JS floating-point numbers are modelled as exact
  rationals (`ℚ`); all concrete scores appearing in the claims are small
  dyadic/decimal values where the two agree.
* `new Date().toISOString()` (the `timestamp` field) is nondeterministic
  I/O and is omitted from the embedded `AnalysisResult`.
-/

deriving instance DecidableEq for Except

attribute [local semireducible] Rat.add Rat.sub Rat.mul Rat.inv

/-- Configuration default `maxPropositions` (constructor default). -/
def maxPropositions : Nat := 20

/-- Configuration default `maxTextLength` (constructor default). -/
def maxTextLength : Nat := 5000

/-- A proposition variable `{ symbol, meaning }`. -/
structure PropVar where
  symbol : String
  meaning : String
deriving DecidableEq, Repr

instance : Inhabited PropVar := ⟨⟨"", ""⟩⟩

/-- AST nodes, mirroring the objects built by `parseTokens`:
`{type:"variable", name}`, `{type:"constant", value}`,
`{type:"unary", operator, argument}`, `{type:"binary", operator, left, right}`.
Operators and constant values are kept as the raw glyph strings stored by
the parser, exactly as in the source. -/
inductive ASTNode where
  | var (name : String)
  | const (value : String)
  | unary (operator : String) (argument : ASTNode)
  | binary (operator : String) (left : ASTNode) (right : ASTNode)
deriving DecidableEq, Repr

/-- The wrapper object returned by `buildAST`:
`{ type: "expression", value: expression, ast }` (the constant `type` tag
is omitted). -/
structure Expression where
  value : String
  ast : ASTNode
deriving DecidableEq, Repr

/-- A truth-table row assignment (`variableValues`): a JS object keyed by
variable symbol. -/
abbrev Assignment := String → Option Bool

/-- Embeds `evaluateExpression(node, variableValues)`.  `Except.error` models the
`throw new Error(...)` on an unknown operator / node shape.  A JS object
lookup of an absent key yields `undefined`, hence the `Option.getD false`
for the `!== undefined ? ... : false` test. -/
def evaluateExpression : ASTNode → Assignment → Except String Bool
  | .var n, vv => .ok ((vv n).getD false)
  | .const v, _ => .ok (v == "⊤")
  | .unary op a, vv =>
      if op == "¬" then
        match evaluateExpression a vv with
        | .ok b => .ok (!b)
        | .error e => .error e
      else .error ("Unknown node type: unary")
  | .binary op l r, vv =>
      match evaluateExpression l vv with
      | .error e => .error e
      | .ok lv =>
          match evaluateExpression r vv with
          | .error e => .error e
          | .ok rv =>
              if op == "∧" then .ok (lv && rv)
              else if op == "∨" then .ok (lv || rv)
              else if op == "→" then .ok (!lv || rv)
              else if op == "↔" then .ok (lv == rv)
              else .error ("Unknown operator: " ++ op)

/-- Well-formedness of an AST: the operator strings are the ones the parser
can actually store (the data model of the spec, §3). -/
def ASTNode.WF : ASTNode → Bool
  | .var _ => true
  | .const _ => true
  | .unary op a => op == "¬" && a.WF
  | .binary op l r =>
      (op == "∧" || op == "∨" || op == "→" || op == "↔") && l.WF && r.WF

/-- Binary digits of `i`, most significant first, no leading zeros
(`[]` for `0`); the fuel argument bounds the division recursion and is
always sufficient when `i ≤ fuel`. -/
def natBitsAux : Nat → Nat → List Bool
  | 0, _ => []
  | fuel + 1, i => if i = 0 then [] else natBitsAux fuel (i / 2) ++ [i % 2 == 1]

/-- Embeds `i.toString(2)` as a boolean list: the binary digits of `i`,
most significant first (`"0"`, i.e. `[false]`, for `i = 0`). -/
def binStr (i : Nat) : List Bool :=
  if i = 0 then [false] else natBitsAux (i + 1) i

/-- Embeds `i.toString(2).padStart(n, "0").split("").map(bit => bit === "1")`. -/
def padCombo (n i : Nat) : List Bool :=
  List.replicate (n - (binStr i).length) false ++ binStr i

/-- Embeds `generateCombinations(n)`. -/
def generateCombinations (n : Nat) : List (List Bool) :=
  (List.range (2 ^ n)).map (fun i => padCombo n i)

/-- One truth-table row `{ values, result }`. -/
structure Row where
  values : Assignment
  result : Bool

instance : Inhabited Row := ⟨⟨fun _ => none, false⟩⟩

/-- One JS property assignment `variableValues[p.1] = p.2`. -/
def assignStep (acc : Assignment) (p : String × Bool) : Assignment :=
  fun x => if x = p.1 then some p.2 else acc x

/-- The `variableValues` object built row by row:
`variableValues[variableSymbols[i]] = combination[i]` for each `i`; a later
(duplicate) symbol overwrites an earlier one, as JS property assignment
does. -/
def buildAssign (syms : List String) (combo : List Bool) : Assignment :=
  (syms.zip combo).foldl assignStep (fun _ => none)

/-- The row-building loop of `generateTruthTable`; an evaluator exception
aborts the whole loop (and function). -/
def rowsFor (ast : ASTNode) (syms : List String) :
    List (List Bool) → Except String (List Row)
  | [] => .ok []
  | combo :: rest =>
      match evaluateExpression ast (buildAssign syms combo) with
      | .error e => .error e
      | .ok b =>
          match rowsFor ast syms rest with
          | .error e => .error e
          | .ok rows => .ok (⟨buildAssign syms combo, b⟩ :: rows)

/-- Embeds `generateTruthTable(ast, variables)`. -/
def generateTruthTable (ast : Expression) (vars : List PropVar) :
    Except String (List Row) :=
  let syms := vars.map PropVar.symbol
  rowsFor ast.ast syms (generateCombinations syms.length)

/-- The zero-padded `n`-bit binary expansion of `i`, most significant bit
first (reference definition used to state C1). -/
def binPad : Nat → Nat → List Bool
  | 0, _ => []
  | n + 1, i => binPad n (i / 2) ++ [i % 2 == 1]

theorem binPad_length (n i : Nat) : (binPad n i).length = n := by
  induction n generalizing i with
  | zero => rfl
  | succ n ih => simp [binPad, ih]

theorem binPad_zero (n : Nat) : binPad n 0 = List.replicate n false := by
  induction n with
  | zero => rfl
  | succ n ih =>
    rw [binPad, ih, show ((0 : Nat) % 2 == 1) = false from rfl,
      ← List.replicate_succ']

theorem natBitsAux_zero : ∀ f, natBitsAux f 0 = []
  | 0 => rfl
  | f + 1 => by rw [natBitsAux, if_pos rfl]

theorem natBitsAux_congr (i : Nat) :
    ∀ f g, i ≤ f → i ≤ g → 0 < i → natBitsAux f i = natBitsAux g i := by
  induction i using Nat.strong_induction_on with
  | _ i ih =>
    intro f g hf hg hpos
    cases f with
    | zero => omega
    | succ f =>
      cases g with
      | zero => omega
      | succ g =>
        rw [natBitsAux, natBitsAux, if_neg (by omega), if_neg (by omega)]
        by_cases hz : i / 2 = 0
        · rw [hz, natBitsAux_zero, natBitsAux_zero]
        · have hd : i / 2 < i := Nat.div_lt_self hpos (by omega)
          rw [ih (i / 2) hd f (i / 2) (by omega) (by omega) (by omega)]
          rw [ih (i / 2) hd g (i / 2) (by omega) (by omega) (by omega)]

theorem binStr_unfold (i : Nat) (h : 0 < i) :
    binStr i = (if i / 2 = 0 then [] else binStr (i / 2)) ++ [i % 2 == 1] := by
  obtain ⟨j, rfl⟩ : ∃ j, i = j + 1 := ⟨i - 1, by omega⟩
  rw [binStr, if_neg (by omega)]
  rw [show natBitsAux (j + 1 + 1) (j + 1) =
      natBitsAux (j + 1) ((j + 1) / 2) ++ [(j + 1) % 2 == 1] from by
    rw [natBitsAux, if_neg (by omega)]]
  by_cases hz : (j + 1) / 2 = 0
  · have hj : j = 0 := by omega
    subst hj
    rw [hz, if_pos rfl]
    rfl
  · rw [if_neg hz, binStr, if_neg hz,
      natBitsAux_congr ((j + 1) / 2) (j + 1) ((j + 1) / 2 + 1) (by omega) (by omega)
        (by omega)]

theorem padCombo_eq_binPad (n : Nat) :
    ∀ i, 1 ≤ n → i < 2 ^ n → padCombo n i = binPad n i := by
  induction n with
  | zero => omega
  | succ n ih =>
    intro i _ hi
    by_cases h0 : i = 0
    · subst h0
      rw [binPad_zero, padCombo]
      rw [show binStr 0 = [false] from rfl, ← List.replicate_succ']
      rfl
    · by_cases h1 : i = 1
      · subst h1
        rw [padCombo, show binStr 1 = [true] from rfl, binPad,
          show (1 : Nat) / 2 = 0 from rfl, binPad_zero,
          show ((1 : Nat) % 2 == 1) = true from rfl,
          show (n + 1 - ([true] : List Bool).length) = n from rfl]
      · have hn : 1 ≤ n := by
          rcases Nat.eq_zero_or_pos n with h | h
          · subst h; omega
          · exact h
        have hd2 : i / 2 < 2 ^ n := by rw [pow_succ] at hi; omega
        have hdpos : 0 < i / 2 := Nat.div_pos (by omega) (by omega)
        have ihd := ih (i / 2) hn hd2
        rw [padCombo, binStr_unfold i (by omega), if_neg (by omega)]
        rw [binPad, ← ihd, padCombo]
        rw [List.length_append, List.length_singleton]
        rw [Nat.succ_sub_succ, ← List.append_assoc]

theorem binPad_getD (n : Nat) :
    ∀ i j, j < n → (binPad n i).getD j false = Nat.testBit i (n - 1 - j) := by
  induction n with
  | zero => omega
  | succ n ih =>
    intro i j hj
    rw [binPad]
    by_cases h : j < n
    · rw [List.getD_append _ _ _ _ (by rw [binPad_length]; exact h)]
      rw [ih (i / 2) j h]
      have : n - 1 - j + 1 = n + 1 - 1 - j := by omega
      rw [← this, ← Nat.testBit_add_one]
    · have hjn : j = n := by omega
      subst hjn
      rw [List.getD_eq_getElem?_getD, List.getElem?_append_right (by rw [binPad_length])]
      rw [binPad_length]
      simp only [Nat.sub_self, List.getElem?_cons_zero, Option.getD_some]
      rw [Nat.add_sub_cancel, Nat.sub_self, Nat.testBit_zero]
      rcases Nat.mod_two_eq_zero_or_one i with h | h <;> simp [h]

theorem evaluateExpression_WF_ok (a : ASTNode) :
    ∀ vv : Assignment, a.WF = true → ∃ b, evaluateExpression a vv = .ok b := by
  induction a with
  | var n => intro vv _; exact ⟨_, rfl⟩
  | const v => intro vv _; exact ⟨_, rfl⟩
  | unary op a ih =>
      intro vv hwf
      rw [ASTNode.WF, Bool.and_eq_true] at hwf
      obtain ⟨b, hb⟩ := ih vv hwf.2
      refine ⟨!b, ?_⟩
      rw [evaluateExpression, if_pos hwf.1, hb]
  | binary op l r ihl ihr =>
      intro vv hwf
      rw [ASTNode.WF, Bool.and_eq_true, Bool.and_eq_true] at hwf
      obtain ⟨lv, hl⟩ := ihl vv hwf.1.2
      obtain ⟨rv, hr⟩ := ihr vv hwf.2
      have hop := hwf.1.1
      rw [Bool.or_eq_true, Bool.or_eq_true, Bool.or_eq_true] at hop
      rcases hop with ((h | h) | h) | h <;> rw [beq_iff_eq] at h <;> subst h
      · exact ⟨lv && rv, by simp [evaluateExpression, hl, hr]⟩
      · exact ⟨lv || rv, by simp [evaluateExpression, hl, hr]⟩
      · exact ⟨!lv || rv, by simp [evaluateExpression, hl, hr]⟩
      · exact ⟨lv == rv, by simp [evaluateExpression, hl, hr]⟩

theorem assignFold_notMem :
    ∀ (ps : List (String × Bool)) (init : Assignment) (x : String),
      x ∉ ps.map Prod.fst → ps.foldl assignStep init x = init x := by
  intro ps
  induction ps with
  | nil => intro init x _; rfl
  | cons p ps ih =>
      intro init x hx
      rw [List.map_cons, List.mem_cons] at hx
      push_neg at hx
      rw [List.foldl_cons, ih _ x hx.2, assignStep, if_neg hx.1]

theorem assignFold_getD :
    ∀ (syms : List String) (combo : List Bool) (init : Assignment),
      syms.Nodup → combo.length = syms.length →
      ∀ j, j < syms.length →
        (syms.zip combo).foldl assignStep init (syms.getD j "") =
          some (combo.getD j false) := by
  intro syms
  induction syms with
  | nil => intro _ _ _ _ j hj; simp at hj
  | cons s ss ih =>
      intro combo init hnd hlen j hj
      have hj2 : j < ss.length + 1 := by rw [List.length_cons] at hj; omega
      match combo with
      | [] => simp at hlen
      | b :: bs =>
          rw [List.zip_cons_cons, List.foldl_cons]
          rw [List.nodup_cons] at hnd
          have hlen' : bs.length = ss.length := by
            simpa using hlen
          match j with
          | 0 =>
              rw [List.getD_cons_zero, List.getD_cons_zero]
              rw [assignFold_notMem _ _ s
                (by rw [List.map_fst_zip ss bs (le_of_eq hlen'.symm)]; exact hnd.1)]
              rw [assignStep, if_pos rfl]
          | j + 1 =>
              rw [List.getD_cons_succ, List.getD_cons_succ]
              exact ih bs (assignStep init (s, b)) hnd.2 hlen' j (by omega)

theorem buildAssign_getD (syms : List String) (combo : List Bool)
    (hnd : syms.Nodup) (hlen : combo.length = syms.length)
    (j : Nat) (hj : j < syms.length) :
    buildAssign syms combo (syms.getD j "") = some (combo.getD j false) :=
  assignFold_getD syms combo _ hnd hlen j hj

theorem rowsFor_ok (a : ASTNode) (syms : List String) (hwf : a.WF = true) :
    ∀ combos, ∃ rows, rowsFor a syms combos = .ok rows ∧
      rows.length = combos.length ∧
      ∀ i, i < combos.length →
        (rows.getD i default).values = buildAssign syms (combos.getD i []) ∧
        evaluateExpression a (buildAssign syms (combos.getD i [])) =
          .ok ((rows.getD i default).result) := by
  intro combos
  induction combos with
  | nil => exact ⟨[], rfl, rfl, fun i hi => absurd hi (by simp)⟩
  | cons c cs ih =>
      obtain ⟨rows, hrows, hlen, hget⟩ := ih
      obtain ⟨b, hb⟩ := evaluateExpression_WF_ok a (buildAssign syms c) hwf
      refine ⟨⟨buildAssign syms c, b⟩ :: rows, ?_, ?_, ?_⟩
      · rw [rowsFor, hb, hrows]
      · simp [hlen]
      · intro i hi
        match i with
        | 0 => exact ⟨rfl, hb⟩
        | i + 1 =>
            rw [List.getD_cons_succ, List.getD_cons_succ]
            exact hget i (by simpa using hi)

theorem genComb_getD (n i : Nat) (hi : i < 2 ^ n) :
    (generateCombinations n).getD i [] = padCombo n i := by
  rw [generateCombinations, List.getD_eq_getElem?_getD, List.getElem?_map,
    List.getElem?_range hi]
  rfl

/-- C1: for every AST over the data model and every ordered sequence of `n`
declared variables (with the data-model invariant that declared symbols are
distinct), `generateTruthTable` returns exactly `2^n` rows, and for every
`i < 2^n` and `j < n`, the assignment of row `i` maps the `j`-th declared
variable (counting from 0, most significant first) to true exactly when bit
`j` of the zero-padded `n`-bit binary expansion of `i` is 1, i.e. to
`Nat.testBit i (n - 1 - j)`. -/
theorem C1_generateTruthTable_canonical (ast : Expression) (vars : List PropVar)
    (hwf : ast.ast.WF = true) (hnd : (vars.map PropVar.symbol).Nodup) :
    ∃ rows, generateTruthTable ast vars = .ok rows ∧
      rows.length = 2 ^ vars.length ∧
      ∀ i, i < 2 ^ vars.length → ∀ j, j < vars.length →
        (rows.getD i default).values ((vars.map PropVar.symbol).getD j "") =
          some (Nat.testBit i (vars.length - 1 - j)) := by
  have hslen : (vars.map PropVar.symbol).length = vars.length :=
    List.length_map _ _
  obtain ⟨rows, hrows, hlen, hget⟩ :=
    rowsFor_ok ast.ast (vars.map PropVar.symbol) hwf
      (generateCombinations (vars.map PropVar.symbol).length)
  have hclen : (generateCombinations (vars.map PropVar.symbol).length).length =
      2 ^ vars.length := by
    rw [generateCombinations, List.length_map, List.length_range, hslen]
  refine ⟨rows, hrows, by rw [hlen, hclen], ?_⟩
  intro i hi j hj
  have hi' : i < 2 ^ (vars.map PropVar.symbol).length := by rw [hslen]; exact hi
  obtain ⟨hv, _⟩ := hget i (by rw [hclen]; exact hi)
  rw [hv, genComb_getD _ i hi',
    padCombo_eq_binPad _ i (by omega) hi',
    buildAssign_getD _ _ hnd (by rw [binPad_length]) j (by rw [hslen]; exact hj),
    binPad_getD _ i j (by rw [hslen]; exact hj), hslen]

/-- Witness for C1 at the concrete input `p ∧ q` over variables `p, q`. -/
theorem C1_witness :
    ((⟨"p ∧ q", .binary "∧" (.var "p") (.var "q")⟩ : Expression).ast.WF = true) ∧
    (([⟨"p", "x"⟩, ⟨"q", "y"⟩] : List PropVar).map PropVar.symbol).Nodup ∧
    ∃ rows,
      generateTruthTable ⟨"p ∧ q", .binary "∧" (.var "p") (.var "q")⟩
        [⟨"p", "x"⟩, ⟨"q", "y"⟩] = .ok rows ∧
      rows.length = 2 ^ ([⟨"p", "x"⟩, ⟨"q", "y"⟩] : List PropVar).length ∧
      ∀ i, i < 2 ^ ([⟨"p", "x"⟩, ⟨"q", "y"⟩] : List PropVar).length →
        ∀ j, j < ([⟨"p", "x"⟩, ⟨"q", "y"⟩] : List PropVar).length →
        (rows.getD i default).values
            ((([⟨"p", "x"⟩, ⟨"q", "y"⟩] : List PropVar).map PropVar.symbol).getD j "") =
          some (Nat.testBit i (([⟨"p", "x"⟩, ⟨"q", "y"⟩] : List PropVar).length - 1 - j)) :=
  ⟨by decide, by decide,
    C1_generateTruthTable_canonical ⟨"p ∧ q", .binary "∧" (.var "p") (.var "q")⟩
      [⟨"p", "x"⟩, ⟨"q", "y"⟩] (by decide) (by decide)⟩

/-- C2: `evaluateExpression` semantics case by case: a variable evaluates to
the value stored in the assignment for its name, defaulting to `false` when absent
(no exception); `⊤` is true and `⊥` is false; `¬` is logical negation of
the operand; and the binary operators have standard two-valued semantics
with `IMPLIES(a,b) = ¬a ∨ b` and `IFF(a,b) = (a == b)`. -/
theorem C2_evaluateExpression_semantics (vv : Assignment) :
    (∀ n, evaluateExpression (.var n) vv = .ok ((vv n).getD false)) ∧
    evaluateExpression (.const "⊤") vv = .ok true ∧
    evaluateExpression (.const "⊥") vv = .ok false ∧
    (∀ a b, evaluateExpression a vv = .ok b →
      evaluateExpression (.unary "¬" a) vv = .ok (!b)) ∧
    (∀ l r lv rv, evaluateExpression l vv = .ok lv →
      evaluateExpression r vv = .ok rv →
      evaluateExpression (.binary "∧" l r) vv = .ok (lv && rv) ∧
      evaluateExpression (.binary "∨" l r) vv = .ok (lv || rv) ∧
      evaluateExpression (.binary "→" l r) vv = .ok (!lv || rv) ∧
      evaluateExpression (.binary "↔" l r) vv = .ok (lv == rv)) := by
  refine ⟨fun n => rfl, rfl, rfl, ?_, ?_⟩
  · intro a b hb
    simp [evaluateExpression, hb]
  · intro l r lv rv hl hr
    refine ⟨?_, ?_, ?_, ?_⟩ <;> simp [evaluateExpression, hl, hr]

/-- Witness for C2 at concrete nodes and the empty assignment. -/
theorem C2_witness :
    evaluateExpression (.var "z") (fun _ => none) = .ok false ∧
    evaluateExpression (.unary "¬" (.const "⊤")) (fun _ => none) = .ok false ∧
    evaluateExpression (.binary "→" (.const "⊤") (.const "⊥")) (fun _ => none) =
      .ok false := by
  obtain ⟨h1, _, _, h4, h5⟩ := C2_evaluateExpression_semantics (fun _ => none)
  exact ⟨h1 "z", h4 (.const "⊤") true rfl,
    (h5 (.const "⊤") (.const "⊥") true false rfl rfl).2.2.1⟩

/-- C10: `generateTruthTable` performs no validation of its variables
argument: with an empty variable list it returns a single row (`2^0`) whose
assignment is empty and whose result is the AST evaluated with every
variable defaulted to false; with a single variable it returns exactly 2
rows.  (The two-variable minimum lives only in the upstream validation in `analyze`.) -/
theorem C10_generateTruthTable_no_validation (ast : Expression)
    (hwf : ast.ast.WF = true) :
    (∃ b, evaluateExpression ast.ast (fun _ => none) = .ok b ∧
      generateTruthTable ast [] = .ok [⟨fun _ => none, b⟩]) ∧
    ∀ v : PropVar, ∃ rows, generateTruthTable ast [v] = .ok rows ∧
      rows.length = 2 := by
  constructor
  · obtain ⟨b, hb⟩ := evaluateExpression_WF_ok ast.ast (fun _ => none) hwf
    refine ⟨b, hb, ?_⟩
    show rowsFor ast.ast [] (generateCombinations 0) = _
    rw [show generateCombinations 0 = [[false]] from rfl, rowsFor,
      show buildAssign [] [false] = (fun _ => none) from rfl, hb, rowsFor]
  · intro v
    obtain ⟨rows, hrows, hlen, _⟩ :=
      rowsFor_ok ast.ast [v.symbol] hwf (generateCombinations 1)
    exact ⟨rows, hrows, by rw [hlen]; rfl⟩

/-- Witness for C10 at the concrete AST `¬p`. -/
theorem C10_witness :
    ((⟨"¬p", .unary "¬" (.var "p")⟩ : Expression).ast.WF = true) ∧
    ((∃ b, evaluateExpression (ASTNode.unary "¬" (.var "p")) (fun _ => none) = .ok b ∧
      generateTruthTable ⟨"¬p", .unary "¬" (.var "p")⟩ [] = .ok [⟨fun _ => none, b⟩]) ∧
    ∀ v : PropVar, ∃ rows,
      generateTruthTable ⟨"¬p", .unary "¬" (.var "p")⟩ [v] = .ok rows ∧
      rows.length = 2) :=
  ⟨by decide,
    C10_generateTruthTable_no_validation ⟨"¬p", .unary "¬" (.var "p")⟩ (by decide)⟩

/-- The nine reserved single-character tokens of `tokenize`. -/
def reservedChars : List Char := ['∧', '∨', '¬', '→', '↔', '(', ')', '⊤', '⊥']

/-- Character scan of `tokenize`: each reserved glyph is its own token, a
space (only `" "`, as in the source) flushes the current identifier run,
any other character extends the run. -/
def tokenizeAux : List Char → List Char → List String
  | [], cur => if cur = [] then [] else [String.mk cur]
  | c :: rest, cur =>
      if c ∈ reservedChars then
        (if cur = [] then [] else [String.mk cur]) ++
          String.mk [c] :: tokenizeAux rest []
      else if c = ' ' then
        (if cur = [] then [] else [String.mk cur]) ++ tokenizeAux rest []
      else tokenizeAux rest (cur ++ [c])

/-- Embeds `tokenize(expression)`. -/
def tokenize (expression : String) : List String :=
  tokenizeAux expression.data []

/-- Parse-stage failures of `parseExpression`; each constructor corresponds
to one message in the source:
`emptyExpr` = "La expresión lógica no puede estar vacía.",
`unbalanced` = "Paréntesis no balanceados en la expresión.",
`unexpectedEnd` = "Unexpected end of expression",
`missingClose` = "Expected closing parenthesis",
`trailing t` = "Unexpected token after expression: t",
`unexpectedTok t` = "Unexpected token: t".
`fuel` is an artifact of the fueled embedding, proven unreachable for the
fuel supplied by `parseTokens` (`parseStep_fuel`). -/
inductive ParseErr where
  | emptyExpr
  | unbalanced
  | unexpectedEnd
  | missingClose
  | trailing (t : String)
  | unexpectedTok (t : String)
  | fuel
deriving DecidableEq, Repr

/-- Which of the mutually recursive parsing functions of `parseTokens` is
executing: `imp`/`dis`/`con` are `parseImplication`/`parseDisjunction`/
`parseConjunction` before their `while` loop (each first parses one
operand at the next-higher tier), `impLoop l`/`disLoop l`/`conLoop l` are
the corresponding `while` loops with accumulated left operand `l`, and
`neg`/`prim` are `parseNegation`/`parsePrimary`. -/
inductive ParseMode where
  | imp
  | impLoop (l : ASTNode)
  | dis
  | disLoop (l : ASTNode)
  | con
  | conLoop (l : ASTNode)
  | neg
  | prim
deriving Repr

/-- The check `/^[a-z]$/.test(token)` of the parser. -/
def isVarTok (t : String) : Bool :=
  match t.data with
  | [c] => 'a' ≤ c && c ≤ 'z'
  | _ => false

/-- The recursive-descent core of `parseTokens`, one step-indexed function
covering the six mutually recursive inner functions (see `ParseMode`).
Returns the parsed node and the unconsumed tokens.  The fuel decreases at
every recursive call and never runs out for the fuel chosen by
`parseTokens` (`parseStep_fuel`). -/
def parseStep : Nat → ParseMode → List String → Except ParseErr (ASTNode × List String)
  | 0, _, _ => .error .fuel
  | f + 1, .imp, ts =>
      match parseStep f .dis ts with
      | .ok (l, r) => parseStep f (.impLoop l) r
      | .error e => .error e
  | f + 1, .impLoop l, ts =>
      match ts with
      | [] => .ok (l, [])
      | t :: ts' =>
          if t = "→" then
            match parseStep f .dis ts' with
            | .ok (b, r) => parseStep f (.impLoop (.binary "→" l b)) r
            | .error e => .error e
          else .ok (l, t :: ts')
  | f + 1, .dis, ts =>
      match parseStep f .con ts with
      | .ok (l, r) => parseStep f (.disLoop l) r
      | .error e => .error e
  | f + 1, .disLoop l, ts =>
      match ts with
      | [] => .ok (l, [])
      | t :: ts' =>
          if t = "∨" then
            match parseStep f .con ts' with
            | .ok (b, r) => parseStep f (.disLoop (.binary "∨" l b)) r
            | .error e => .error e
          else .ok (l, t :: ts')
  | f + 1, .con, ts =>
      match parseStep f .neg ts with
      | .ok (l, r) => parseStep f (.conLoop l) r
      | .error e => .error e
  | f + 1, .conLoop l, ts =>
      match ts with
      | [] => .ok (l, [])
      | t :: ts' =>
          if t = "∧" then
            match parseStep f .neg ts' with
            | .ok (b, r) => parseStep f (.conLoop (.binary "∧" l b)) r
            | .error e => .error e
          else .ok (l, t :: ts')
  | f + 1, .neg, ts =>
      match ts with
      | [] => parseStep f .prim []
      | t :: ts' =>
          if t = "¬" then
            match parseStep f .neg ts' with
            | .ok (a, r) => .ok (.unary "¬" a, r)
            | .error e => .error e
          else parseStep f .prim (t :: ts')
  | f + 1, .prim, ts =>
      match ts with
      | [] => .error .unexpectedEnd
      | t :: ts' =>
          if t = "(" then
            match parseStep f .imp ts' with
            | .ok (e, r) =>
                (match r with
                 | [] => .error .missingClose
                 | r0 :: r' => if r0 = ")" then .ok (e, r') else .error .missingClose)
            | .error e => .error e
          else if t = "⊤" ∨ t = "⊥" then .ok (.const t, ts')
          else if isVarTok t then .ok (.var t, ts')
          else .error (.unexpectedTok t)

/-- Fuel supplied to `parseStep` by `parseTokens`; `parseStep_fuel` shows
it is always sufficient. -/
def parseFuel (ts : List String) : Nat := 6 * ts.length + 8

/-- Embeds `parseTokens(tokens)`: parse a full expression, then reject trailing
unconsumed tokens. -/
def parseTokens (ts : List String) : Except ParseErr ASTNode :=
  match parseStep (parseFuel ts) .imp ts with
  | .ok (a, []) => .ok a
  | .ok (_, t :: _) => .error (.trailing t)
  | .error e => .error e

/-- Embeds `buildAST(expression)`. -/
def buildAST (expression : String) : Except ParseErr Expression :=
  match parseTokens (tokenize expression) with
  | .ok a => .ok ⟨expression, a⟩
  | .error e => .error e

/-- JS `\s` (the ASCII part; the inputs of interest contain no exotic
Unicode whitespace). -/
def isWsChar (c : Char) : Bool :=
  c = ' ' || c = '\t' || c = '\n' || c = '\r' || c = '\x0B' || c = '\x0C'

/-- Embeds `String.prototype.trim` on a character list. -/
def jsTrimL (l : List Char) : List Char :=
  ((l.dropWhile isWsChar).reverse.dropWhile isWsChar).reverse

/-- Embeds `String.prototype.trim`. -/
def jsTrim (s : String) : String := String.mk (jsTrimL s.data)

/-- The stack-based bracket-matching pre-pass of `parseExpression`: push
each `(`, pop on `)` when the top is `(`, fail on `)` with an
empty or mismatched stack or on a nonempty final stack. -/
def checkBalanced : List Char → List Char → Bool
  | [], stack => stack.isEmpty
  | c :: rest, stack =>
      if c = '(' then checkBalanced rest ('(' :: stack)
      else if c = ')' then
        match stack with
        | [] => false
        | t :: stack' => if t = '(' then checkBalanced rest stack' else false
      else checkBalanced rest stack

/-- Embeds `parseExpression(expression)`: empty check, bracket pre-pass, then
`buildAST`; parser exceptions are caught and returned as failure values
(modelled by the `Except` result). -/
def parseExpression (expression : String) : Except ParseErr Expression :=
  if (jsTrim expression).data = [] then .error .emptyExpr
  else if ! checkBalanced expression.data [] then .error .unbalanced
  else buildAST expression

theorem parseStep_consume :
    ∀ f mode ts a r, parseStep f mode ts = .ok (a, r) → r.length ≤ ts.length := by
  intro f
  induction f with
  | zero => intro mode ts a r h; simp [parseStep] at h
  | succ f ih =>
      intro mode ts a r h
      cases mode with
      | imp =>
          simp only [parseStep] at h
          cases h1 : parseStep f ParseMode.dis ts with
          | error e => rw [h1] at h; simp at h
          | ok p =>
              obtain ⟨l, r1⟩ := p
              rw [h1] at h
              exact le_trans (ih _ _ _ _ h) (ih _ _ _ _ h1)
      | impLoop l =>
          cases ts with
          | nil =>
              simp only [parseStep] at h
              obtain ⟨rfl, rfl⟩ := h
              exact Nat.le_refl _
          | cons t ts' =>
              simp only [parseStep] at h
              by_cases ht : t = "→"
              · rw [if_pos ht] at h
                cases h1 : parseStep f ParseMode.dis ts' with
                | error e => rw [h1] at h; simp at h
                | ok p =>
                    obtain ⟨b, r1⟩ := p
                    rw [h1] at h
                    have h2 := le_trans (ih _ _ _ _ h) (ih _ _ _ _ h1)
                    rw [List.length_cons]
                    omega
              · rw [if_neg ht] at h
                obtain ⟨rfl, rfl⟩ := Prod.mk.injEq _ _ _ _ ▸ Except.ok.inj h
                exact Nat.le_refl _
      | dis =>
          simp only [parseStep] at h
          cases h1 : parseStep f ParseMode.con ts with
          | error e => rw [h1] at h; simp at h
          | ok p =>
              obtain ⟨l, r1⟩ := p
              rw [h1] at h
              exact le_trans (ih _ _ _ _ h) (ih _ _ _ _ h1)
      | disLoop l =>
          cases ts with
          | nil =>
              simp only [parseStep] at h
              obtain ⟨rfl, rfl⟩ := h
              exact Nat.le_refl _
          | cons t ts' =>
              simp only [parseStep] at h
              by_cases ht : t = "∨"
              · rw [if_pos ht] at h
                cases h1 : parseStep f ParseMode.con ts' with
                | error e => rw [h1] at h; simp at h
                | ok p =>
                    obtain ⟨b, r1⟩ := p
                    rw [h1] at h
                    have h2 := le_trans (ih _ _ _ _ h) (ih _ _ _ _ h1)
                    rw [List.length_cons]
                    omega
              · rw [if_neg ht] at h
                obtain ⟨rfl, rfl⟩ := Prod.mk.injEq _ _ _ _ ▸ Except.ok.inj h
                exact Nat.le_refl _
      | con =>
          simp only [parseStep] at h
          cases h1 : parseStep f ParseMode.neg ts with
          | error e => rw [h1] at h; simp at h
          | ok p =>
              obtain ⟨l, r1⟩ := p
              rw [h1] at h
              exact le_trans (ih _ _ _ _ h) (ih _ _ _ _ h1)
      | conLoop l =>
          cases ts with
          | nil =>
              simp only [parseStep] at h
              obtain ⟨rfl, rfl⟩ := h
              exact Nat.le_refl _
          | cons t ts' =>
              simp only [parseStep] at h
              by_cases ht : t = "∧"
              · rw [if_pos ht] at h
                cases h1 : parseStep f ParseMode.neg ts' with
                | error e => rw [h1] at h; simp at h
                | ok p =>
                    obtain ⟨b, r1⟩ := p
                    rw [h1] at h
                    have h2 := le_trans (ih _ _ _ _ h) (ih _ _ _ _ h1)
                    rw [List.length_cons]
                    omega
              · rw [if_neg ht] at h
                obtain ⟨rfl, rfl⟩ := Prod.mk.injEq _ _ _ _ ▸ Except.ok.inj h
                exact Nat.le_refl _
      | neg =>
          cases ts with
          | nil =>
              simp only [parseStep] at h
              exact ih _ _ _ _ h
          | cons t ts' =>
              simp only [parseStep] at h
              by_cases ht : t = "¬"
              · rw [if_pos ht] at h
                cases h1 : parseStep f ParseMode.neg ts' with
                | error e => rw [h1] at h; simp at h
                | ok p =>
                    obtain ⟨b, r1⟩ := p
                    rw [h1] at h
                    obtain ⟨rfl, rfl⟩ := Prod.mk.injEq _ _ _ _ ▸ Except.ok.inj h
                    have h2 := ih _ _ _ _ h1
                    rw [List.length_cons]
                    omega
              · rw [if_neg ht] at h
                exact ih _ _ _ _ h
      | prim =>
          cases ts with
          | nil => simp [parseStep] at h
          | cons t ts' =>
              simp only [parseStep] at h
              by_cases hp : t = "("
              · rw [if_pos hp] at h
                cases h1 : parseStep f ParseMode.imp ts' with
                | error e => rw [h1] at h; simp at h
                | ok p =>
                    obtain ⟨e0, r1⟩ := p
                    rw [h1] at h
                    cases r1 with
                    | nil => simp at h
                    | cons r0 r'' =>
                        have h2 : (if r0 = ")" then Except.ok (e0, r'')
                            else Except.error ParseErr.missingClose) =
                            Except.ok (a, r) := h
                        by_cases hr : r0 = ")"
                        · rw [if_pos hr] at h2
                          obtain ⟨rfl, rfl⟩ := Prod.mk.injEq _ _ _ _ ▸ Except.ok.inj h2
                          have h3 := ih _ _ _ _ h1
                          rw [List.length_cons] at h3 ⊢
                          omega
                        · rw [if_neg hr] at h2
                          simp at h2
              · rw [if_neg hp] at h
                by_cases hc : t = "⊤" ∨ t = "⊥"
                · rw [if_pos hc] at h
                  obtain ⟨rfl, rfl⟩ := Prod.mk.injEq _ _ _ _ ▸ Except.ok.inj h
                  rw [List.length_cons]
                  omega
                · rw [if_neg hc] at h
                  by_cases hv : isVarTok t = true
                  · rw [if_pos hv] at h
                    obtain ⟨rfl, rfl⟩ := Prod.mk.injEq _ _ _ _ ▸ Except.ok.inj h
                    rw [List.length_cons]
                    omega
                  · rw [if_neg hv] at h
                    simp at h

/-- Minimal fuel (relative to the token-list length) for each parser mode. -/
def modeOffset : ParseMode → Nat
  | .imp => 5
  | .impLoop _ => 4
  | .dis => 4
  | .disLoop _ => 3
  | .con => 3
  | .conLoop _ => 2
  | .neg => 2
  | .prim => 1

theorem parseStep_fuel :
    ∀ f mode ts, 6 * ts.length + modeOffset mode ≤ f →
      parseStep f mode ts ≠ .error .fuel := by
  intro f
  induction f with
  | zero =>
      intro mode ts hf
      cases mode <;> simp [modeOffset] at hf
  | succ f ih =>
      intro mode ts hf h
      cases mode with
      | imp =>
          simp only [parseStep] at h
          cases h1 : parseStep f ParseMode.dis ts with
          | error e =>
              rw [h1] at h
              have he : e = ParseErr.fuel := by simpa using h
              subst he
              exact ih ParseMode.dis ts
                (by simp only [modeOffset] at hf ⊢; omega) h1
          | ok p =>
              obtain ⟨l, r1⟩ := p
              rw [h1] at h
              have hc := parseStep_consume f ParseMode.dis ts l r1 h1
              exact ih (ParseMode.impLoop l) r1
                (by simp only [modeOffset] at hf ⊢; omega) h
      | impLoop l =>
          cases ts with
          | nil => simp [parseStep] at h
          | cons t ts' =>
              simp only [parseStep] at h
              by_cases ht : t = "→"
              · rw [if_pos ht] at h
                cases h1 : parseStep f ParseMode.dis ts' with
                | error e =>
                    rw [h1] at h
                    have he : e = ParseErr.fuel := by simpa using h
                    subst he
                    exact ih ParseMode.dis ts'
                      (by simp only [modeOffset, List.length_cons] at hf ⊢; omega) h1
                | ok p =>
                    obtain ⟨b, r1⟩ := p
                    rw [h1] at h
                    have hc := parseStep_consume f ParseMode.dis ts' b r1 h1
                    exact ih (ParseMode.impLoop (.binary "→" l b)) r1
                      (by simp only [modeOffset, List.length_cons] at hf ⊢; omega) h
              · rw [if_neg ht] at h
                simp at h
      | dis =>
          simp only [parseStep] at h
          cases h1 : parseStep f ParseMode.con ts with
          | error e =>
              rw [h1] at h
              have he : e = ParseErr.fuel := by simpa using h
              subst he
              exact ih ParseMode.con ts
                (by simp only [modeOffset] at hf ⊢; omega) h1
          | ok p =>
              obtain ⟨l, r1⟩ := p
              rw [h1] at h
              have hc := parseStep_consume f ParseMode.con ts l r1 h1
              exact ih (ParseMode.disLoop l) r1
                (by simp only [modeOffset] at hf ⊢; omega) h
      | disLoop l =>
          cases ts with
          | nil => simp [parseStep] at h
          | cons t ts' =>
              simp only [parseStep] at h
              by_cases ht : t = "∨"
              · rw [if_pos ht] at h
                cases h1 : parseStep f ParseMode.con ts' with
                | error e =>
                    rw [h1] at h
                    have he : e = ParseErr.fuel := by simpa using h
                    subst he
                    exact ih ParseMode.con ts'
                      (by simp only [modeOffset, List.length_cons] at hf ⊢; omega) h1
                | ok p =>
                    obtain ⟨b, r1⟩ := p
                    rw [h1] at h
                    have hc := parseStep_consume f ParseMode.con ts' b r1 h1
                    exact ih (ParseMode.disLoop (.binary "∨" l b)) r1
                      (by simp only [modeOffset, List.length_cons] at hf ⊢; omega) h
              · rw [if_neg ht] at h
                simp at h
      | con =>
          simp only [parseStep] at h
          cases h1 : parseStep f ParseMode.neg ts with
          | error e =>
              rw [h1] at h
              have he : e = ParseErr.fuel := by simpa using h
              subst he
              exact ih ParseMode.neg ts
                (by simp only [modeOffset] at hf ⊢; omega) h1
          | ok p =>
              obtain ⟨l, r1⟩ := p
              rw [h1] at h
              have hc := parseStep_consume f ParseMode.neg ts l r1 h1
              exact ih (ParseMode.conLoop l) r1
                (by simp only [modeOffset] at hf ⊢; omega) h
      | conLoop l =>
          cases ts with
          | nil => simp [parseStep] at h
          | cons t ts' =>
              simp only [parseStep] at h
              by_cases ht : t = "∧"
              · rw [if_pos ht] at h
                cases h1 : parseStep f ParseMode.neg ts' with
                | error e =>
                    rw [h1] at h
                    have he : e = ParseErr.fuel := by simpa using h
                    subst he
                    exact ih ParseMode.neg ts'
                      (by simp only [modeOffset, List.length_cons] at hf ⊢; omega) h1
                | ok p =>
                    obtain ⟨b, r1⟩ := p
                    rw [h1] at h
                    have hc := parseStep_consume f ParseMode.neg ts' b r1 h1
                    exact ih (ParseMode.conLoop (.binary "∧" l b)) r1
                      (by simp only [modeOffset, List.length_cons] at hf ⊢; omega) h
              · rw [if_neg ht] at h
                simp at h
      | neg =>
          cases ts with
          | nil =>
              simp only [parseStep] at h
              exact ih ParseMode.prim []
                (by simp only [modeOffset] at hf ⊢; omega) h
          | cons t ts' =>
              simp only [parseStep] at h
              by_cases ht : t = "¬"
              · rw [if_pos ht] at h
                cases h1 : parseStep f ParseMode.neg ts' with
                | error e =>
                    rw [h1] at h
                    have he : e = ParseErr.fuel := by simpa using h
                    subst he
                    exact ih ParseMode.neg ts'
                      (by simp only [modeOffset, List.length_cons] at hf ⊢; omega) h1
                | ok p =>
                    obtain ⟨a, r1⟩ := p
                    rw [h1] at h
                    simp at h
              · rw [if_neg ht] at h
                exact ih ParseMode.prim (t :: ts')
                  (by simp only [modeOffset, List.length_cons] at hf ⊢; omega) h
      | prim =>
          cases ts with
          | nil => simp [parseStep] at h
          | cons t ts' =>
              simp only [parseStep] at h
              by_cases hp : t = "("
              · rw [if_pos hp] at h
                cases h1 : parseStep f ParseMode.imp ts' with
                | error e =>
                    rw [h1] at h
                    have he : e = ParseErr.fuel := by simpa using h
                    subst he
                    exact ih ParseMode.imp ts'
                      (by simp only [modeOffset, List.length_cons] at hf ⊢; omega) h1
                | ok p =>
                    obtain ⟨e0, r1⟩ := p
                    rw [h1] at h
                    cases r1 with
                    | nil => simp at h
                    | cons r0 r'' =>
                        have h2 : (if r0 = ")" then Except.ok (e0, r'')
                            else Except.error ParseErr.missingClose) =
                            Except.error ParseErr.fuel := h
                        by_cases hr : r0 = ")"
                        · rw [if_pos hr] at h2; simp at h2
                        · rw [if_neg hr] at h2; simp at h2
              · rw [if_neg hp] at h
                by_cases hc : t = "⊤" ∨ t = "⊥"
                · rw [if_pos hc] at h; simp at h
                · rw [if_neg hc] at h
                  by_cases hv : isVarTok t = true
                  · rw [if_pos hv] at h; simp at h
                  · rw [if_neg hv] at h; simp at h

/-- The possible error values of the parsing core `parseStep`:
end-of-input at a primary, a missing `)`, or an offending token at primary
position that is none of `(`, a constant glyph, or a single-lowercase
variable (plus the fuel artifact, unreachable for the fuel supplied by
`parseTokens`). -/
def parserErrClass (e : ParseErr) : Prop :=
  e = .fuel ∨ e = .unexpectedEnd ∨ e = .missingClose ∨
  ∃ t, e = .unexpectedTok t ∧ t ≠ "(" ∧ ¬(t = "⊤" ∨ t = "⊥") ∧ isVarTok t = false

theorem parseStep_error_class :
    ∀ f mode ts e, parseStep f mode ts = .error e → parserErrClass e := by
  intro f
  induction f with
  | zero =>
      intro mode ts e h
      simp only [parseStep] at h
      exact Or.inl (Except.error.inj h).symm
  | succ f ih =>
      intro mode ts e h
      cases mode with
      | imp =>
          simp only [parseStep] at h
          cases h1 : parseStep f ParseMode.dis ts with
          | error e1 =>
              rw [h1] at h
              obtain rfl := (Except.error.inj h)
              exact ih _ _ _ h1
          | ok p =>
              obtain ⟨l, r1⟩ := p
              rw [h1] at h
              exact ih _ _ _ h
      | impLoop l =>
          cases ts with
          | nil => simp [parseStep] at h
          | cons t ts' =>
              simp only [parseStep] at h
              by_cases ht : t = "→"
              · rw [if_pos ht] at h
                cases h1 : parseStep f ParseMode.dis ts' with
                | error e1 =>
                    rw [h1] at h
                    obtain rfl := (Except.error.inj h)
                    exact ih _ _ _ h1
                | ok p =>
                    obtain ⟨b, r1⟩ := p
                    rw [h1] at h
                    exact ih _ _ _ h
              · rw [if_neg ht] at h
                simp at h
      | dis =>
          simp only [parseStep] at h
          cases h1 : parseStep f ParseMode.con ts with
          | error e1 =>
              rw [h1] at h
              obtain rfl := (Except.error.inj h)
              exact ih _ _ _ h1
          | ok p =>
              obtain ⟨l, r1⟩ := p
              rw [h1] at h
              exact ih _ _ _ h
      | disLoop l =>
          cases ts with
          | nil => simp [parseStep] at h
          | cons t ts' =>
              simp only [parseStep] at h
              by_cases ht : t = "∨"
              · rw [if_pos ht] at h
                cases h1 : parseStep f ParseMode.con ts' with
                | error e1 =>
                    rw [h1] at h
                    obtain rfl := (Except.error.inj h)
                    exact ih _ _ _ h1
                | ok p =>
                    obtain ⟨b, r1⟩ := p
                    rw [h1] at h
                    exact ih _ _ _ h
              · rw [if_neg ht] at h
                simp at h
      | con =>
          simp only [parseStep] at h
          cases h1 : parseStep f ParseMode.neg ts with
          | error e1 =>
              rw [h1] at h
              obtain rfl := (Except.error.inj h)
              exact ih _ _ _ h1
          | ok p =>
              obtain ⟨l, r1⟩ := p
              rw [h1] at h
              exact ih _ _ _ h
      | conLoop l =>
          cases ts with
          | nil => simp [parseStep] at h
          | cons t ts' =>
              simp only [parseStep] at h
              by_cases ht : t = "∧"
              · rw [if_pos ht] at h
                cases h1 : parseStep f ParseMode.neg ts' with
                | error e1 =>
                    rw [h1] at h
                    obtain rfl := (Except.error.inj h)
                    exact ih _ _ _ h1
                | ok p =>
                    obtain ⟨b, r1⟩ := p
                    rw [h1] at h
                    exact ih _ _ _ h
              · rw [if_neg ht] at h
                simp at h
      | neg =>
          cases ts with
          | nil =>
              simp only [parseStep] at h
              exact ih _ _ _ h
          | cons t ts' =>
              simp only [parseStep] at h
              by_cases ht : t = "¬"
              · rw [if_pos ht] at h
                cases h1 : parseStep f ParseMode.neg ts' with
                | error e1 =>
                    rw [h1] at h
                    obtain rfl := (Except.error.inj h)
                    exact ih _ _ _ h1
                | ok p =>
                    obtain ⟨a, r1⟩ := p
                    rw [h1] at h
                    simp at h
              · rw [if_neg ht] at h
                exact ih _ _ _ h
      | prim =>
          cases ts with
          | nil =>
              simp only [parseStep] at h
              exact Or.inr (Or.inl (Except.error.inj h).symm)
          | cons t ts' =>
              simp only [parseStep] at h
              by_cases hp : t = "("
              · rw [if_pos hp] at h
                cases h1 : parseStep f ParseMode.imp ts' with
                | error e1 =>
                    rw [h1] at h
                    obtain rfl := (Except.error.inj h)
                    exact ih _ _ _ h1
                | ok p =>
                    obtain ⟨e0, r1⟩ := p
                    rw [h1] at h
                    cases r1 with
                    | nil =>
                        have h2 : ParseErr.missingClose = e := Except.error.inj h
                        exact Or.inr (Or.inr (Or.inl h2.symm))
                    | cons r0 r'' =>
                        have h2 : (if r0 = ")" then Except.ok (e0, r'')
                            else Except.error ParseErr.missingClose) =
                            Except.error e := h
                        by_cases hr : r0 = ")"
                        · rw [if_pos hr] at h2; simp at h2
                        · rw [if_neg hr] at h2
                          exact Or.inr (Or.inr (Or.inl (Except.error.inj h2).symm))
              · rw [if_neg hp] at h
                by_cases hc : t = "⊤" ∨ t = "⊥"
                · rw [if_pos hc] at h; simp at h
                · rw [if_neg hc] at h
                  by_cases hv : isVarTok t = true
                  · rw [if_pos hv] at h; simp at h
                  · rw [if_neg hv] at h
                    refine Or.inr (Or.inr (Or.inr ⟨t, (Except.error.inj h).symm, hp, hc, ?_⟩))
                    simpa using hv

/-- Counter version of the bracket pre-pass (the stack holds only `(`,
so only its height matters). -/
def balAux : List Char → Nat → Bool
  | [], n => n == 0
  | c :: rest, n =>
      if c = '(' then balAux rest (n + 1)
      else if c = ')' then
        match n with
        | 0 => false
        | m + 1 => balAux rest m
      else balAux rest n

/-- Declarative characterisation of balanced parentheses: every prefix has
at least as many `(` as `)`, and the total counts agree. -/
def balancedStr (l : List Char) : Prop :=
  (∀ p, (l.take p).count ')' ≤ (l.take p).count '(') ∧
    l.count ')' = l.count '('

theorem checkBalanced_eq_balAux :
    ∀ l stack, (∀ c ∈ stack, c = '(') →
      checkBalanced l stack = balAux l stack.length := by
  intro l
  induction l with
  | nil =>
      intro stack _
      cases stack <;> rfl
  | cons c rest ih =>
      intro stack hs
      by_cases h1 : c = '('
      · subst h1
        rw [show checkBalanced ('(' :: rest) stack =
            checkBalanced rest ('(' :: stack) from by simp [checkBalanced]]
        rw [show balAux ('(' :: rest) stack.length =
            balAux rest (stack.length + 1) from by simp [balAux]]
        rw [ih ('(' :: stack) (by
          intro x hx
          rcases List.mem_cons.mp hx with h | h
          · exact h
          · exact hs x h)]
        rfl
      · by_cases h2 : c = ')'
        · subst h2
          cases stack with
          | nil =>
              rw [show checkBalanced (')' :: rest) [] = false from by
                simp [checkBalanced]]
              rw [show balAux (')' :: rest) ([] : List Char).length = false from by
                simp [balAux]]
          | cons t stack' =>
              have ht : t = '(' := hs t (List.mem_cons_self _ _)
              subst ht
              rw [show checkBalanced (')' :: rest) ('(' :: stack') =
                  checkBalanced rest stack' from by simp [checkBalanced]]
              rw [show balAux (')' :: rest) ('(' :: stack').length =
                  balAux rest stack'.length from by simp [balAux]]
              exact ih stack' (fun x hx => hs x (List.mem_cons_of_mem _ hx))
        · rw [show checkBalanced (c :: rest) stack =
              checkBalanced rest stack from by simp [checkBalanced, h1, h2]]
          rw [show balAux (c :: rest) stack.length =
              balAux rest stack.length from by simp [balAux, h1, h2]]
          exact ih stack hs

theorem balAux_iff :
    ∀ l n, balAux l n = true ↔
      ((∀ p, (l.take p).count ')' ≤ n + (l.take p).count '(') ∧
        l.count ')' = n + l.count '(') := by
  intro l
  induction l with
  | nil =>
      intro n
      simp only [balAux, List.take_nil, List.count_nil, Nat.beq_eq_true_eq]
      constructor
      · intro h; subst h; exact ⟨fun p => by omega, by omega⟩
      · rintro ⟨-, h2⟩; omega
  | cons c rest ih =>
      intro n
      by_cases h1 : c = '('
      · subst h1
        rw [show balAux ('(' :: rest) n = balAux rest (n + 1) from by
          simp [balAux]]
        rw [ih (n + 1)]
        constructor
        · rintro ⟨ha, hb⟩
          constructor
          · intro p
            cases p with
            | zero => simp
            | succ p =>
                rw [List.take_succ_cons, List.count_cons_of_ne (by decide),
                  List.count_cons_self]
                have := ha p
                omega
          · rw [List.count_cons_of_ne (by decide), List.count_cons_self]
            omega
        · rintro ⟨ha, hb⟩
          constructor
          · intro p
            have := ha (p + 1)
            rw [List.take_succ_cons, List.count_cons_of_ne (by decide),
              List.count_cons_self] at this
            omega
          · rw [List.count_cons_of_ne (by decide), List.count_cons_self] at hb
            omega
      · by_cases h2 : c = ')'
        · subst h2
          cases n with
          | zero =>
              rw [show balAux (')' :: rest) 0 = false from by simp [balAux]]
              constructor
              · intro h; simp at h
              · rintro ⟨ha, -⟩
                exfalso
                have := ha 1
                rw [show List.take 1 (')' :: rest) = [')'] from by
                  rw [List.take_succ_cons, List.take_zero]] at this
                simp at this
          | succ m =>
              rw [show balAux (')' :: rest) (m + 1) = balAux rest m from by
                simp [balAux]]
              rw [ih m]
              constructor
              · rintro ⟨ha, hb⟩
                constructor
                · intro p
                  cases p with
                  | zero => simp
                  | succ p =>
                      rw [List.take_succ_cons, List.count_cons_self,
                        List.count_cons_of_ne (by decide)]
                      have := ha p
                      omega
                · rw [List.count_cons_self, List.count_cons_of_ne (by decide)]
                  omega
              · rintro ⟨ha, hb⟩
                constructor
                · intro p
                  have := ha (p + 1)
                  rw [List.take_succ_cons, List.count_cons_self,
                    List.count_cons_of_ne (by decide)] at this
                  omega
                · rw [List.count_cons_self,
                    List.count_cons_of_ne (by decide)] at hb
                  omega
        · rw [show balAux (c :: rest) n = balAux rest n from by
            simp [balAux, h1, h2]]
          rw [ih n]
          have hne1 : ')' ≠ c := fun hh => h2 hh.symm
          have hne2 : '(' ≠ c := fun hh => h1 hh.symm
          constructor
          · rintro ⟨ha, hb⟩
            constructor
            · intro p
              cases p with
              | zero => simp
              | succ p =>
                  rw [List.take_succ_cons, List.count_cons_of_ne hne1,
                    List.count_cons_of_ne hne2]
                  exact ha p
            · rw [List.count_cons_of_ne hne1, List.count_cons_of_ne hne2]
              exact hb
          · rintro ⟨ha, hb⟩
            constructor
            · intro p
              have := ha (p + 1)
              rwa [List.take_succ_cons, List.count_cons_of_ne hne1,
                List.count_cons_of_ne hne2] at this
            · rwa [List.count_cons_of_ne hne1,
                List.count_cons_of_ne hne2] at hb

theorem checkBalanced_iff (l : List Char) :
    checkBalanced l [] = true ↔ balancedStr l := by
  rw [checkBalanced_eq_balAux l [] (by intro c h; simp at h)]
  rw [show (([] : List Char)).length = 0 from rfl, balAux_iff l 0]
  unfold balancedStr
  constructor
  · rintro ⟨ha, hb⟩
    exact ⟨fun p => by have := ha p; omega, by omega⟩
  · rintro ⟨ha, hb⟩
    exact ⟨fun p => by have := ha p; omega, by omega⟩

theorem jsTrimL_nil_all_ws (l : List Char) (h : jsTrimL l = []) :
    ∀ c ∈ l, isWsChar c = true := by
  unfold jsTrimL at h
  rw [List.reverse_eq_nil_iff, List.dropWhile_eq_nil_iff] at h
  intro c hc
  have hsplit : c ∈ l.takeWhile isWsChar ++ l.dropWhile isWsChar := by
    rw [List.takeWhile_append_dropWhile]
    exact hc
  rcases List.mem_append.mp hsplit with h1 | h1
  · exact List.mem_takeWhile_imp h1
  · exact h c (List.mem_reverse.mpr h1)

theorem all_ws_balanced (l : List Char) (h : ∀ c ∈ l, isWsChar c = true) :
    balancedStr l := by
  have hnp : ∀ x : Char, isWsChar x = false → x ∉ l := by
    intro x hx hmem
    rw [h x hmem] at hx
    exact Bool.true_eq_false ▸ hx.symm ▸ absurd hx (by simp)
  have c1 : l.count ')' = 0 := List.count_eq_zero.mpr (hnp ')' (by decide))
  have c2 : l.count '(' = 0 := List.count_eq_zero.mpr (hnp '(' (by decide))
  constructor
  · intro p
    have h1 : (l.take p).count ')' = 0 := by
      rw [List.count_eq_zero]
      intro hm
      exact hnp ')' (by decide) (List.mem_of_mem_take hm)
    omega
  · omega

theorem parseTokens_error (ts : List String) (e : ParseErr)
    (h : parseTokens ts = .error e) :
    e = .unexpectedEnd ∨ e = .missingClose ∨ (∃ t, e = .trailing t) ∨
      ∃ t, e = .unexpectedTok t ∧ t ≠ "(" ∧ ¬(t = "⊤" ∨ t = "⊥") ∧
        isVarTok t = false := by
  unfold parseTokens at h
  cases h1 : parseStep (parseFuel ts) ParseMode.imp ts with
  | ok p =>
      obtain ⟨a, r⟩ := p
      rw [h1] at h
      cases r with
      | nil => simp at h
      | cons t r' =>
          exact Or.inr (Or.inr (Or.inl ⟨t, (Except.error.inj h).symm⟩))
  | error e1 =>
      rw [h1] at h
      obtain rfl := Except.error.inj h
      rcases parseStep_error_class _ _ _ _ h1 with hf | h' | h' | h'
      · rw [hf] at h1
        exact absurd h1 (parseStep_fuel _ _ _
          (by simp only [parseFuel, modeOffset]; omega))
      · exact Or.inl h'
      · exact Or.inr (Or.inl h')
      · exact Or.inr (Or.inr (Or.inr h'))

/-- A token that the tokenizer produced as an identifier: a nonempty run of
characters none of which is a reserved glyph or a space. -/
def isIdentifierTok (t : String) : Bool :=
  !t.data.isEmpty && t.data.all (fun c => !reservedChars.contains c && c != ' ')

/-- C8 (amended): the symbolic-path entry `parseExpression` fails exactly
with: an empty/whitespace-only expression, unbalanced parentheses (found
by the stack-based bracket pre-pass `checkBalanced` before any structural
parsing — the first conjunct shows every string that is not balanced in
the declarative counting sense is rejected there), unexpected end of the
token stream while a primary is expected, a missing closing parenthesis,
trailing unconsumed tokens after a complete expression, or an offending
token at a position where a primary is expected that is not `(`, not a
constant glyph and not a single-lowercase-letter identifier (such a token
may be an operator glyph or `)` as well as a malformed identifier); on
every other input it returns a complete AST (`Except.ok`). -/
theorem C8_parseExpression_errors :
    (∀ s : String, ¬ balancedStr s.data → parseExpression s = .error .unbalanced) ∧
    (∀ (s : String) (e : ParseErr), parseExpression s = .error e →
      e = .emptyExpr ∨ e = .unbalanced ∨ e = .unexpectedEnd ∨ e = .missingClose ∨
      (∃ t, e = .trailing t) ∨
      ∃ t, e = .unexpectedTok t ∧ t ≠ "(" ∧ ¬(t = "⊤" ∨ t = "⊥") ∧
        isVarTok t = false) := by
  constructor
  · intro s hb
    unfold parseExpression
    have htr : ¬ ((jsTrim s).data = []) := by
      intro h0
      exact hb (all_ws_balanced _ (jsTrimL_nil_all_ws _ h0))
    have hcb : checkBalanced s.data [] = false := by
      cases hc : checkBalanced s.data []
      · rfl
      · exact absurd ((checkBalanced_iff s.data).mp hc) hb
    rw [if_neg htr, hcb]
    rfl
  · intro s e h
    unfold parseExpression at h
    by_cases h1 : (jsTrim s).data = []
    · rw [if_pos h1] at h
      exact Or.inl (Except.error.inj h).symm
    · rw [if_neg h1] at h
      cases hc : checkBalanced s.data []
      · rw [hc] at h
        have h2 : ParseErr.unbalanced = e := by simpa using h
        exact Or.inr (Or.inl h2.symm)
      · rw [hc] at h
        have h2 : buildAST s = .error e := by simpa using h
        unfold buildAST at h2
        cases h3 : parseTokens (tokenize s) with
        | ok a => rw [h3] at h2; simp at h2
        | error e1 =>
            rw [h3] at h2
            obtain rfl := Except.error.inj h2
            rcases parseTokens_error _ _ h3 with h' | h' | h' | h'
            · exact Or.inr (Or.inr (Or.inl h'))
            · exact Or.inr (Or.inr (Or.inr (Or.inl h')))
            · exact Or.inr (Or.inr (Or.inr (Or.inr (Or.inl h'))))
            · exact Or.inr (Or.inr (Or.inr (Or.inr (Or.inr h'))))

/-- Witness for C8 (amended): the pre-pass rejects the unbalanced
`"(p ∧ q"`, and the failure of `"p ∧"` (unexpected end) lies in the
amended error class. -/
theorem C8_amended_witness :
    (¬ balancedStr "(p ∧ q".data) ∧
    parseExpression "(p ∧ q" = .error .unbalanced ∧
    parseExpression "p ∧" = .error .unexpectedEnd ∧
    ((ParseErr.unexpectedEnd) = .emptyExpr ∨
      (ParseErr.unexpectedEnd) = .unbalanced ∨
      (ParseErr.unexpectedEnd) = .unexpectedEnd ∨
      (ParseErr.unexpectedEnd) = .missingClose ∨
      (∃ t, (ParseErr.unexpectedEnd) = .trailing t) ∨
      ∃ t, (ParseErr.unexpectedEnd) = .unexpectedTok t ∧ t ≠ "(" ∧
        ¬(t = "⊤" ∨ t = "⊥") ∧ isVarTok t = false) := by
  have hb : ¬ balancedStr "(p ∧ q".data := by
    intro hbal
    exact absurd hbal.2 (by decide)
  exact ⟨hb, C8_parseExpression_errors.1 "(p ∧ q" hb, by decide,
    C8_parseExpression_errors.2 "p ∧" ParseErr.unexpectedEnd (by decide)⟩

/-- Counterexample for C8 as stated: on input `"()"` (balanced, nonempty)
the parser fails with `Unexpected token: )`, but `)` is not an identifier
token (it is a reserved glyph), so this failure falls in none of the five
claimed cases: not the unbalanced-parentheses case, not unexpected end of
input, not a missing closing parenthesis, not trailing tokens, and not a
malformed *identifier*. -/
theorem C8_counterexample :
    parseExpression "()" = .error (.unexpectedTok ")") ∧
    ¬(ParseErr.unexpectedTok ")" = .emptyExpr ∨
      ParseErr.unexpectedTok ")" = .unbalanced ∨
      ParseErr.unexpectedTok ")" = .unexpectedEnd ∨
      ParseErr.unexpectedTok ")" = .missingClose ∨
      (∃ t, ParseErr.unexpectedTok ")" = .trailing t) ∨
      ∃ t, ParseErr.unexpectedTok ")" = .unexpectedTok t ∧
        isIdentifierTok t = true) := by
  constructor
  · decide
  · rintro (h | h | h | h | ⟨t, h⟩ | ⟨t, h, hid⟩)
    · simp at h
    · simp at h
    · simp at h
    · simp at h
    · simp at h
    · obtain rfl := (ParseErr.unexpectedTok.inj h).symm
      exact absurd hid (by decide)

theorem parseStep_prim_var (f : Nat) (x : String) (r : List String)
    (hx : isVarTok x = true) (hf : 1 ≤ f) :
    parseStep f ParseMode.prim (x :: r) = .ok (.var x, r) := by
  obtain ⟨g, rfl⟩ : ∃ g, f = g + 1 := ⟨f - 1, by omega⟩
  have h1 : x ≠ "(" := fun hh => by subst hh; exact absurd hx (by decide)
  have h2 : ¬(x = "⊤" ∨ x = "⊥") := by
    rintro (rfl | rfl) <;> exact absurd hx (by decide)
  simp only [parseStep]
  rw [if_neg h1, if_neg h2, if_pos hx]

theorem parseStep_neg_var (f : Nat) (x : String) (r : List String)
    (hx : isVarTok x = true) (hf : 2 ≤ f) :
    parseStep f ParseMode.neg (x :: r) = .ok (.var x, r) := by
  obtain ⟨g, rfl⟩ : ∃ g, f = g + 2 := ⟨f - 2, by omega⟩
  have h1 : x ≠ "¬" := fun hh => by subst hh; exact absurd hx (by decide)
  show parseStep (g + 1 + 1) ParseMode.neg (x :: r) = _
  simp only [parseStep]
  rw [if_neg h1]
  exact parseStep_prim_var (g + 1) x r hx (by omega)

theorem parseStep_conLoop_exit (f : Nat) (l : ASTNode) (ts : List String)
    (h : ts.head? ≠ some "∧") (hf : 1 ≤ f) :
    parseStep f (ParseMode.conLoop l) ts = .ok (l, ts) := by
  obtain ⟨g, rfl⟩ : ∃ g, f = g + 1 := ⟨f - 1, by omega⟩
  cases ts with
  | nil => simp [parseStep]
  | cons t ts' =>
      have ht : t ≠ "∧" := fun hh => by subst hh; exact h rfl
      simp only [parseStep]
      rw [if_neg ht]

theorem parseStep_disLoop_exit (f : Nat) (l : ASTNode) (ts : List String)
    (h : ts.head? ≠ some "∨") (hf : 1 ≤ f) :
    parseStep f (ParseMode.disLoop l) ts = .ok (l, ts) := by
  obtain ⟨g, rfl⟩ : ∃ g, f = g + 1 := ⟨f - 1, by omega⟩
  cases ts with
  | nil => simp [parseStep]
  | cons t ts' =>
      have ht : t ≠ "∨" := fun hh => by subst hh; exact h rfl
      simp only [parseStep]
      rw [if_neg ht]

theorem parseStep_impLoop_exit (f : Nat) (l : ASTNode) (ts : List String)
    (h : ts.head? ≠ some "→") (hf : 1 ≤ f) :
    parseStep f (ParseMode.impLoop l) ts = .ok (l, ts) := by
  obtain ⟨g, rfl⟩ : ∃ g, f = g + 1 := ⟨f - 1, by omega⟩
  cases ts with
  | nil => simp [parseStep]
  | cons t ts' =>
      have ht : t ≠ "→" := fun hh => by subst hh; exact h rfl
      simp only [parseStep]
      rw [if_neg ht]

theorem parseStep_imp_eq (f : Nat) (ts : List String) :
    parseStep (f + 1) ParseMode.imp ts =
      (match parseStep f ParseMode.dis ts with
       | .ok (l, r) => parseStep f (ParseMode.impLoop l) r
       | .error e => .error e) := rfl

theorem parseStep_dis_eq (f : Nat) (ts : List String) :
    parseStep (f + 1) ParseMode.dis ts =
      (match parseStep f ParseMode.con ts with
       | .ok (l, r) => parseStep f (ParseMode.disLoop l) r
       | .error e => .error e) := rfl

theorem parseStep_con_eq (f : Nat) (ts : List String) :
    parseStep (f + 1) ParseMode.con ts =
      (match parseStep f ParseMode.neg ts with
       | .ok (l, r) => parseStep f (ParseMode.conLoop l) r
       | .error e => .error e) := rfl

theorem parseStep_con_var (f : Nat) (x : String) (r : List String)
    (hx : isVarTok x = true) (hr : r.head? ≠ some "∧") (hf : 4 ≤ f) :
    parseStep f ParseMode.con (x :: r) = .ok (.var x, r) := by
  obtain ⟨g, rfl⟩ : ∃ g, f = g + 4 := ⟨f - 4, by omega⟩
  show parseStep (g + 3 + 1) ParseMode.con (x :: r) = _
  rw [parseStep_con_eq, parseStep_neg_var (g + 3) x r hx (by omega)]
  exact parseStep_conLoop_exit (g + 3) _ r hr (by omega)

theorem parseStep_dis_var (f : Nat) (x : String) (r : List String)
    (hx : isVarTok x = true) (h1 : r.head? ≠ some "∧")
    (h2 : r.head? ≠ some "∨") (hf : 6 ≤ f) :
    parseStep f ParseMode.dis (x :: r) = .ok (.var x, r) := by
  obtain ⟨g, rfl⟩ : ∃ g, f = g + 6 := ⟨f - 6, by omega⟩
  show parseStep (g + 5 + 1) ParseMode.dis (x :: r) = _
  rw [parseStep_dis_eq, parseStep_con_var (g + 5) x r hx h1 (by omega)]
  exact parseStep_disLoop_exit (g + 5) _ r h2 (by omega)

/-- The tokens `op x₁ op x₂ … op xₖ` that follow the first operand of a
chain of `op`-applications. -/
def chainTail (op : String) (vs : List String) : List String :=
  vs.foldr (fun x acc => op :: x :: acc) []

theorem chainTail_length (op : String) (vs : List String) :
    (chainTail op vs).length = 2 * vs.length := by
  induction vs with
  | nil => rfl
  | cons x vs ih =>
      rw [show chainTail op (x :: vs) = op :: x :: chainTail op vs from rfl,
        List.length_cons, List.length_cons, ih, List.length_cons]
      omega

theorem conLoop_chain :
    ∀ (vs : List String) (f : Nat) (l : ASTNode) (rest : List String),
      (∀ x ∈ vs, isVarTok x = true) →
      rest.head? ≠ some "∧" →
      6 * vs.length + 4 ≤ f →
      parseStep f (ParseMode.conLoop l) (chainTail "∧" vs ++ rest) =
        .ok (vs.foldl (fun acc x => .binary "∧" acc (.var x)) l, rest) := by
  intro vs
  induction vs with
  | nil =>
      intro f l rest _ hr hf
      exact parseStep_conLoop_exit f l rest hr (by omega)
  | cons x vs ih =>
      intro f l rest hvs hr hf
      rw [List.length_cons] at hf
      obtain ⟨g, rfl⟩ : ∃ g, f = g + 1 := ⟨f - 1, by omega⟩
      rw [show chainTail "∧" (x :: vs) ++ rest =
        "∧" :: x :: (chainTail "∧" vs ++ rest) from rfl]
      simp only [parseStep]
      rw [if_pos trivial,
        parseStep_neg_var g x _ (hvs x (List.mem_cons_self _ _)) (by omega),
        List.foldl_cons]
      exact ih g _ rest (fun y hy => hvs y (List.mem_cons_of_mem _ hy)) hr
        (by omega)

theorem disLoop_chain :
    ∀ (vs : List String) (f : Nat) (l : ASTNode) (rest : List String),
      (∀ x ∈ vs, isVarTok x = true) →
      rest.head? ≠ some "∧" →
      rest.head? ≠ some "∨" →
      8 * vs.length + 4 ≤ f →
      parseStep f (ParseMode.disLoop l) (chainTail "∨" vs ++ rest) =
        .ok (vs.foldl (fun acc x => .binary "∨" acc (.var x)) l, rest) := by
  intro vs
  induction vs with
  | nil =>
      intro f l rest _ _ hr hf
      exact parseStep_disLoop_exit f l rest hr (by omega)
  | cons x vs ih =>
      intro f l rest hvs hr1 hr2 hf
      rw [List.length_cons] at hf
      obtain ⟨g, rfl⟩ : ∃ g, f = g + 1 := ⟨f - 1, by omega⟩
      rw [show chainTail "∨" (x :: vs) ++ rest =
        "∨" :: x :: (chainTail "∨" vs ++ rest) from rfl]
      have hhead : (chainTail "∨" vs ++ rest).head? ≠ some "∧" := by
        cases vs with
        | nil => exact hr1
        | cons a b =>
            rw [show chainTail "∨" (a :: b) ++ rest =
              "∨" :: (a :: (chainTail "∨" b ++ rest)) from rfl]
            intro hcontra
            simp at hcontra
      simp only [parseStep]
      rw [if_pos trivial,
        parseStep_con_var g x _ (hvs x (List.mem_cons_self _ _)) hhead (by omega),
        List.foldl_cons]
      exact ih g _ rest (fun y hy => hvs y (List.mem_cons_of_mem _ hy)) hr1 hr2
        (by omega)

theorem impLoop_chain :
    ∀ (vs : List String) (f : Nat) (l : ASTNode) (rest : List String),
      (∀ x ∈ vs, isVarTok x = true) →
      rest.head? ≠ some "∧" →
      rest.head? ≠ some "∨" →
      rest.head? ≠ some "→" →
      10 * vs.length + 6 ≤ f →
      parseStep f (ParseMode.impLoop l) (chainTail "→" vs ++ rest) =
        .ok (vs.foldl (fun acc x => .binary "→" acc (.var x)) l, rest) := by
  intro vs
  induction vs with
  | nil =>
      intro f l rest _ _ _ hr hf
      exact parseStep_impLoop_exit f l rest hr (by omega)
  | cons x vs ih =>
      intro f l rest hvs hr1 hr2 hr3 hf
      rw [List.length_cons] at hf
      obtain ⟨g, rfl⟩ : ∃ g, f = g + 1 := ⟨f - 1, by omega⟩
      rw [show chainTail "→" (x :: vs) ++ rest =
        "→" :: x :: (chainTail "→" vs ++ rest) from rfl]
      have hhead1 : (chainTail "→" vs ++ rest).head? ≠ some "∧" := by
        cases vs with
        | nil => exact hr1
        | cons a b =>
            rw [show chainTail "→" (a :: b) ++ rest =
              "→" :: (a :: (chainTail "→" b ++ rest)) from rfl]
            intro hcontra
            simp at hcontra
      have hhead2 : (chainTail "→" vs ++ rest).head? ≠ some "∨" := by
        cases vs with
        | nil => exact hr2
        | cons a b =>
            rw [show chainTail "→" (a :: b) ++ rest =
              "→" :: (a :: (chainTail "→" b ++ rest)) from rfl]
            intro hcontra
            simp at hcontra
      simp only [parseStep]
      rw [if_pos trivial,
        parseStep_dis_var g x _ (hvs x (List.mem_cons_self _ _)) hhead1 hhead2
          (by omega),
        List.foldl_cons]
      exact ih g _ rest (fun y hy => hvs y (List.mem_cons_of_mem _ hy)) hr1 hr2
        hr3 (by omega)

theorem chainTail_head_ne (op s : String) (vs : List String) (h : op ≠ s) :
    (chainTail op vs).head? ≠ some s := by
  cases vs with
  | nil => simp [chainTail]
  | cons a b =>
      rw [show chainTail op (a :: b) = op :: a :: chainTail op b from rfl]
      intro hc
      simp at hc
      exact h hc

theorem neg_chain :
    ∀ (k f : Nat) (x : String), isVarTok x = true → k + 2 ≤ f →
      parseStep f ParseMode.neg (List.replicate k "¬" ++ [x]) =
        .ok ((fun a => ASTNode.unary "¬" a)^[k] (.var x), []) := by
  intro k
  induction k with
  | zero =>
      intro f x hx hf
      rw [List.replicate_zero, List.nil_append]
      exact parseStep_neg_var f x [] hx (by omega)
  | succ k ih =>
      intro f x hx hf
      obtain ⟨g, rfl⟩ : ∃ g, f = g + 1 := ⟨f - 1, by omega⟩
      rw [List.replicate_succ, List.cons_append]
      simp only [parseStep]
      rw [if_pos trivial, ih g x hx (by omega), Function.iterate_succ_apply']

theorem parseTokens_imp_chain (v : String) (vs : List String)
    (hv : isVarTok v = true) (hvs : ∀ x ∈ vs, isVarTok x = true) :
    parseTokens (v :: chainTail "→" vs) =
      .ok (vs.foldl (fun acc x => .binary "→" acc (.var x)) (.var v)) := by
  have hlen : (v :: chainTail "→" vs).length = 2 * vs.length + 1 := by
    rw [List.length_cons, chainTail_length]
  obtain ⟨G, hG⟩ : ∃ G, parseFuel (v :: chainTail "→" vs) = G + 1 :=
    ⟨parseFuel (v :: chainTail "→" vs) - 1, by unfold parseFuel; omega⟩
  have hGv : G = 12 * vs.length + 13 := by
    unfold parseFuel at hG
    rw [hlen] at hG
    omega
  have himp : parseStep (G + 1) ParseMode.imp (v :: chainTail "→" vs) =
      .ok (vs.foldl (fun acc x => .binary "→" acc (.var x)) (.var v), []) := by
    rw [parseStep_imp_eq,
      parseStep_dis_var G v _ hv (chainTail_head_ne _ _ _ (by decide))
        (chainTail_head_ne _ _ _ (by decide)) (by omega)]
    rw [show chainTail "→" vs = chainTail "→" vs ++ [] from
      (List.append_nil _).symm]
    exact impLoop_chain vs G _ [] hvs (by simp) (by simp) (by simp) (by omega)
  unfold parseTokens
  rw [hG, himp]

theorem parseTokens_dis_chain (v : String) (vs : List String)
    (hv : isVarTok v = true) (hvs : ∀ x ∈ vs, isVarTok x = true) :
    parseTokens (v :: chainTail "∨" vs) =
      .ok (vs.foldl (fun acc x => .binary "∨" acc (.var x)) (.var v)) := by
  have hlen : (v :: chainTail "∨" vs).length = 2 * vs.length + 1 := by
    rw [List.length_cons, chainTail_length]
  obtain ⟨G, hG⟩ : ∃ G, parseFuel (v :: chainTail "∨" vs) = G + 1 + 1 :=
    ⟨parseFuel (v :: chainTail "∨" vs) - 2, by unfold parseFuel; omega⟩
  have hGv : G = 12 * vs.length + 12 := by
    unfold parseFuel at hG
    rw [hlen] at hG
    omega
  have hdis : parseStep (G + 1) ParseMode.dis (v :: chainTail "∨" vs) =
      .ok (vs.foldl (fun acc x => .binary "∨" acc (.var x)) (.var v), []) := by
    rw [parseStep_dis_eq,
      parseStep_con_var G v _ hv (chainTail_head_ne _ _ _ (by decide))
        (by omega)]
    rw [show chainTail "∨" vs = chainTail "∨" vs ++ [] from
      (List.append_nil _).symm]
    exact disLoop_chain vs G _ [] hvs (by simp) (by simp) (by omega)
  have himp : parseStep (G + 1 + 1) ParseMode.imp (v :: chainTail "∨" vs) =
      .ok (vs.foldl (fun acc x => .binary "∨" acc (.var x)) (.var v), []) := by
    rw [parseStep_imp_eq, hdis]
    exact parseStep_impLoop_exit (G + 1) _ [] (by simp) (by omega)
  unfold parseTokens
  rw [hG, himp]

theorem parseTokens_con_chain (v : String) (vs : List String)
    (hv : isVarTok v = true) (hvs : ∀ x ∈ vs, isVarTok x = true) :
    parseTokens (v :: chainTail "∧" vs) =
      .ok (vs.foldl (fun acc x => .binary "∧" acc (.var x)) (.var v)) := by
  have hlen : (v :: chainTail "∧" vs).length = 2 * vs.length + 1 := by
    rw [List.length_cons, chainTail_length]
  obtain ⟨G, hG⟩ : ∃ G, parseFuel (v :: chainTail "∧" vs) = G + 1 + 1 + 1 :=
    ⟨parseFuel (v :: chainTail "∧" vs) - 3, by unfold parseFuel; omega⟩
  have hGv : G = 12 * vs.length + 11 := by
    unfold parseFuel at hG
    rw [hlen] at hG
    omega
  have hcon : parseStep (G + 1) ParseMode.con (v :: chainTail "∧" vs) =
      .ok (vs.foldl (fun acc x => .binary "∧" acc (.var x)) (.var v), []) := by
    rw [parseStep_con_eq, parseStep_neg_var G v _ hv (by omega)]
    rw [show chainTail "∧" vs = chainTail "∧" vs ++ [] from
      (List.append_nil _).symm]
    exact conLoop_chain vs G _ [] hvs (by simp) (by omega)
  have hdis : parseStep (G + 1 + 1) ParseMode.dis (v :: chainTail "∧" vs) =
      .ok (vs.foldl (fun acc x => .binary "∧" acc (.var x)) (.var v), []) := by
    rw [parseStep_dis_eq, hcon]
    exact parseStep_disLoop_exit (G + 1) _ [] (by simp) (by omega)
  have himp : parseStep (G + 1 + 1 + 1) ParseMode.imp (v :: chainTail "∧" vs) =
      .ok (vs.foldl (fun acc x => .binary "∧" acc (.var x)) (.var v), []) := by
    rw [parseStep_imp_eq, hdis]
    exact parseStep_impLoop_exit (G + 1 + 1) _ [] (by simp) (by omega)
  unfold parseTokens
  rw [hG, himp]

theorem parseTokens_neg_chain (k : Nat) (x : String) (hx : isVarTok x = true) :
    parseTokens (List.replicate k "¬" ++ [x]) =
      .ok ((fun a => ASTNode.unary "¬" a)^[k] (.var x)) := by
  have hlen : (List.replicate k "¬" ++ [x]).length = k + 1 := by
    rw [List.length_append, List.length_replicate, List.length_singleton]
  obtain ⟨G, hG⟩ : ∃ G, parseFuel (List.replicate k "¬" ++ [x]) = G + 1 + 1 + 1 :=
    ⟨parseFuel (List.replicate k "¬" ++ [x]) - 3, by unfold parseFuel; omega⟩
  have hGv : G = 6 * k + 11 := by
    unfold parseFuel at hG
    rw [hlen] at hG
    omega
  have hcon : parseStep (G + 1) ParseMode.con (List.replicate k "¬" ++ [x]) =
      .ok ((fun a => ASTNode.unary "¬" a)^[k] (.var x), []) := by
    rw [parseStep_con_eq, neg_chain k G x hx (by omega)]
    exact parseStep_conLoop_exit G _ [] (by simp) (by omega)
  have hdis : parseStep (G + 1 + 1) ParseMode.dis (List.replicate k "¬" ++ [x]) =
      .ok ((fun a => ASTNode.unary "¬" a)^[k] (.var x), []) := by
    rw [parseStep_dis_eq, hcon]
    exact parseStep_disLoop_exit (G + 1) _ [] (by simp) (by omega)
  have himp : parseStep (G + 1 + 1 + 1) ParseMode.imp
      (List.replicate k "¬" ++ [x]) =
      .ok ((fun a => ASTNode.unary "¬" a)^[k] (.var x), []) := by
    rw [parseStep_imp_eq, hdis]
    exact parseStep_impLoop_exit (G + 1 + 1) _ [] (by simp) (by omega)
  unfold parseTokens
  rw [hG, himp]

/-- C3: the parser realises four precedence tiers with `→`, `∨`, `∧`
left-associative (a chain of the same operator over variables folds left)
and `¬` unary, right-associative (a chain of `¬` nests inwards), and the
two example inputs parse as claimed: `a → b → c` as `(a → b) → c`, and
`¬a ∧ b ∨ c → d` as `(((¬a) ∧ b) ∨ c) → d`. -/
theorem C3_parser_precedence_associativity :
    (∀ (v : String) (vs : List String), isVarTok v = true →
      (∀ x ∈ vs, isVarTok x = true) →
      parseTokens (v :: chainTail "→" vs) =
        .ok (vs.foldl (fun acc x => .binary "→" acc (.var x)) (.var v)) ∧
      parseTokens (v :: chainTail "∨" vs) =
        .ok (vs.foldl (fun acc x => .binary "∨" acc (.var x)) (.var v)) ∧
      parseTokens (v :: chainTail "∧" vs) =
        .ok (vs.foldl (fun acc x => .binary "∧" acc (.var x)) (.var v))) ∧
    (∀ (k : Nat) (x : String), isVarTok x = true →
      parseTokens (List.replicate k "¬" ++ [x]) =
        .ok ((fun a => ASTNode.unary "¬" a)^[k] (.var x))) ∧
    parseExpression "a → b → c" =
      .ok ⟨"a → b → c",
        .binary "→" (.binary "→" (.var "a") (.var "b")) (.var "c")⟩ ∧
    parseExpression "¬a ∧ b ∨ c → d" =
      .ok ⟨"¬a ∧ b ∨ c → d",
        .binary "→"
          (.binary "∨" (.binary "∧" (.unary "¬" (.var "a")) (.var "b"))
            (.var "c"))
          (.var "d")⟩ := by
  refine ⟨?_, ?_, by decide, by decide⟩
  · intro v vs hv hvs
    exact ⟨parseTokens_imp_chain v vs hv hvs,
      parseTokens_dis_chain v vs hv hvs, parseTokens_con_chain v vs hv hvs⟩
  · intro k x hx
    exact parseTokens_neg_chain k x hx

/-- Witness for C3 at a concrete chain and a concrete `¬`-tower. -/
theorem C3_witness :
    isVarTok "a" = true ∧ (∀ x ∈ ["b", "c"], isVarTok x = true) ∧
    parseTokens ["a", "→", "b", "→", "c"] =
      .ok (.binary "→" (.binary "→" (.var "a") (.var "b")) (.var "c")) ∧
    parseTokens ["¬", "¬", "p"] =
      .ok (.unary "¬" (.unary "¬" (.var "p"))) := by
  have h1 := (C3_parser_precedence_associativity.1 "a" ["b", "c"]
    (by decide) (by decide)).1
  have h2 := C3_parser_precedence_associativity.2.1 2 "p" (by decide)
  exact ⟨by decide, by decide, h1, h2⟩

/-- Embeds `String.prototype.toLowerCase` on the character repertoire this
inputs of this program use (ASCII plus the Spanish accented capitals). -/
def jsToLowerChar (c : Char) : Char :=
  if 'A' ≤ c ∧ c ≤ 'Z' then Char.ofNat (c.toNat + 32)
  else if c = 'Á' then 'á'
  else if c = 'É' then 'é'
  else if c = 'Í' then 'í'
  else if c = 'Ó' then 'ó'
  else if c = 'Ú' then 'ú'
  else if c = 'Ñ' then 'ñ'
  else if c = 'Ü' then 'ü'
  else c

/-- Embeds `.normalize("NFD")` followed by removal of the combining marks U+0300 to U+036F, on the Spanish
repertoire: each precomposed accented letter decomposes into its base
letter plus a combining mark, and the mark is deleted. -/
def stripDiacriticChar (c : Char) : Char :=
  if c = 'á' then 'a'
  else if c = 'é' then 'e'
  else if c = 'í' then 'i'
  else if c = 'ó' then 'o'
  else if c = 'ú' then 'u'
  else if c = 'ü' then 'u'
  else if c = 'ñ' then 'n'
  else if c = 'Á' then 'A'
  else if c = 'É' then 'E'
  else if c = 'Í' then 'I'
  else if c = 'Ó' then 'O'
  else if c = 'Ú' then 'U'
  else if c = 'Ü' then 'U'
  else if c = 'Ñ' then 'N'
  else c

/-- JS regex `\w` (no unicode flag): ASCII letters, digits, underscore. -/
def isWordChar (c : Char) : Bool :=
  ('a' ≤ c ∧ c ≤ 'z') || ('A' ≤ c ∧ c ≤ 'Z') || ('0' ≤ c ∧ c ≤ '9') || c = '_'

/-- Embeds `replace` of every whitespace run by a single space: each maximal run becomes one
space. -/
def collapseWsAux : List Char → Bool → List Char
  | [], _ => []
  | c :: rest, inWs =>
      if isWsChar c then
        if inWs then collapseWsAux rest true
        else ' ' :: collapseWsAux rest true
      else c :: collapseWsAux rest false

/-- Text normalisation in the extractor:
`text.toLowerCase()`, whitespace collapse, `trim()`. -/
def normalizeText (s : String) : List Char :=
  jsTrimL (collapseWsAux (s.data.map jsToLowerChar) false)

/-- The negative lookbehind `(?<!\bno)` at a period: blocked when the two
preceding characters are `no` with a word boundary in front of the `n`
(`prev` is the already-consumed text, most recent character first). -/
def lookbehindNo (prev : List Char) : Bool :=
  match prev with
  | 'o' :: 'n' :: rest =>
      match rest with
      | [] => true
      | c :: _ => !isWordChar c
  | _ => false

/-- Embeds `split(/(?<!\bno)\.\s*/)`: scan for periods not preceded by the
standalone word `no`; a match consumes the period and the following
whitespace run.  `piece` and `prev` are reversed accumulators. -/
def splitSentencesAux :
    List Char → Bool → List Char → List Char → List (List Char) →
      List (List Char)
  | [], _, piece, _, acc => acc ++ [piece.reverse]
  | c :: rest, skipWs, piece, prev, acc =>
      if skipWs && isWsChar c then
        splitSentencesAux rest true piece (c :: prev) acc
      else if c = '.' ∧ lookbehindNo prev = false then
        splitSentencesAux rest true [] ('.' :: prev) (acc ++ [piece.reverse])
      else
        splitSentencesAux rest false (c :: piece) (c :: prev) acc

/-- The sentence list: split on (non-`no`) periods, then
`.filter(s => s.trim())`. -/
def splitSentences (l : List Char) : List (List Char) :=
  (splitSentencesAux l false [] [] []).filter (fun p => jsTrimL p ≠ [])

/-- Embeds `[^,]+` (greedy run). -/
def takeNonComma (l : List Char) : List Char :=
  l.takeWhile (fun c => c ≠ ',')

/-- Embeds `[^,\.]+` (greedy run). -/
def takeNonCommaPeriod (l : List Char) : List Char :=
  l.takeWhile (fun c => c ≠ ',' ∧ c ≠ '.')

/-- The tail `\s+entonces ([^,\.]+)` of the implication pattern, tried at
the position after the (optional) comma: a nonempty whitespace run, the
literal `entonces `, then a nonempty `[^,\.]+` capture. -/
def impAfterComma (r : List Char) : Option (List Char) :=
  match r with
  | c :: r' =>
      if isWsChar c then
        let r'' := r'.dropWhile isWsChar
        if r''.take 9 = "entonces ".data then
          let cap2 := takeNonCommaPeriod (r''.drop 9)
          if cap2 = [] then none else some cap2
        else none
      else none
  | [] => none

/-- The continuation `(?:,)?\s+entonces ([^,\.]+)` after capture 1; the
greedy optional comma is tried first, and without a comma the next
character must be whitespace, so the two alternatives never both apply. -/
def impContinuation (rest : List Char) : Option (List Char) :=
  match rest with
  | ',' :: r' => impAfterComma r'
  | _ => impAfterComma rest

/-- Greedy backtracking over the length of capture 1 (`[^,]+`), longest
first, as the regex engine does. -/
def impTryLens (sub : List Char) : Nat → Option (List Char × List Char)
  | 0 => none
  | l + 1 =>
      match impContinuation (sub.drop (l + 1)) with
      | some cap2 => some (sub.take (l + 1), cap2)
      | none => impTryLens sub l

/-- One anchored attempt of `si ([^,]+)(?:,)?\s+entonces ([^,\.]+)`. -/
def impAttemptAt (s : List Char) : Option (List Char × List Char) :=
  if s.take 3 = "si ".data then
    impTryLens (s.drop 3) (takeNonComma (s.drop 3)).length
  else none

/-- Embeds `sentence.match(/si ([^,]+)(?:,)?\s+entonces ([^,\.]+)/i)`: leftmost
match (the `i` flag is moot, the subject is already lowercased); returns
the two raw captures. -/
def matchImplication : List Char → Option (List Char × List Char)
  | [] => none
  | c :: rest =>
      match impAttemptAt (c :: rest) with
      | some caps => some caps
      | none => matchImplication rest

/-- Greedy backtracking for `([^,\.]+) SEP ([^,\.]+)` at a fixed start:
longest capture 1 first, then the literal separator, then a nonempty
capture 2. -/
def binTryLens (sep : List Char) (sub : List Char) :
    Nat → Option (List Char × List Char)
  | 0 => none
  | l + 1 =>
      let rest := sub.drop (l + 1)
      if rest.take sep.length = sep then
        let cap2 := takeNonCommaPeriod (rest.drop sep.length)
        if cap2 = [] then binTryLens sep sub l
        else some (sub.take (l + 1), cap2)
      else binTryLens sep sub l

/-- One anchored attempt of the conjunction/disjunction clause pattern. -/
def binAttemptAt (sep : List Char) (s : List Char) :
    Option (List Char × List Char) :=
  let run := takeNonCommaPeriod s
  if run = [] then none else binTryLens sep s run.length

/-- Embeds `clause.match(/([^,\.]+) y ([^,\.]+)/i)` (with `sep = " y "`), and the
analogous disjunction pattern (`sep = " o "`): leftmost match. -/
def matchBinaryClause (sep : List Char) : List Char → Option (List Char × List Char)
  | [] => none
  | c :: rest =>
      match binAttemptAt sep (c :: rest) with
      | some caps => some caps
      | none => matchBinaryClause sep rest

/-- JS `\b` directly after a non-word character at offset `n`: holds only
when the next character is a word character. -/
def boundaryAfter (l : List Char) (n : Nat) : Bool :=
  match l.drop n with
  | d :: _ => isWordChar d
  | [] => false

/-- Global `replace` of the pattern `pat` followed by a `\b` whose left
side is a non-word character (as in `/irá\b/g`): the boundary holds only
before a following word character.  After a replacement the scan resumes
after the matched text.  The fuel always suffices (`length + 1`). -/
def replaceSuffixAux (pat repl : List Char) : Nat → List Char → List Char
  | 0, l => l
  | _ + 1, [] => []
  | fuel + 1, c :: rest =>
      if (c :: rest).take pat.length = pat ∧
          boundaryAfter (c :: rest) pat.length = true then
        repl ++ replaceSuffixAux pat repl fuel ((c :: rest).drop pat.length)
      else c :: replaceSuffixAux pat repl fuel rest

/-- Embeds `.replace` of word-final `irá` by `e` — the pattern contains the precomposed
`á` (U+00E1), exactly as in the bytes of the source file. -/
def jsReplaceIra (l : List Char) : List Char :=
  replaceSuffixAux "irá".data "e".data (l.length + 1) l

/-- Embeds `.replace` of word-final `ará` by `a`. -/
def jsReplaceAra (l : List Char) : List Char :=
  replaceSuffixAux "ará".data "a".data (l.length + 1) l

/-- The `normalize` helper inside `findBestVariableMatch`: lowercase, NFD
plus removal of combining marks, then the two verb-ending replacements —
in this order, so the replacements run on a string that no longer contains
any `á`. -/
def fvmNormalize (s : String) : List Char :=
  jsReplaceAra (jsReplaceIra ((s.data.map jsToLowerChar).map stripDiacriticChar))

/-- Embeds `split(/\s+/)` with JS semantics: pieces between maximal whitespace
runs, keeping a leading/trailing empty piece when the string starts/ends
with whitespace. -/
def splitWsAux : List Char → Bool → List Char → List (List Char)
  | [], _, piece => [piece.reverse]
  | c :: rest, inWs, piece =>
      if isWsChar c then
        if inWs then splitWsAux rest true piece
        else piece.reverse :: splitWsAux rest true []
      else splitWsAux rest false (c :: piece)

/-- Embeds `str.split(/\s+/)`. -/
def jsSplitWs (l : List Char) : List (List Char) := splitWsAux l false []

/-- The score of one candidate variable: hits over meaning-word count
(`Math.max(…, 1)` in the denominator), boosted by
`score * clauseWords.length / 10` when positive. -/
def fvmScore (clauseWords meaningWords : List (List Char)) : ℚ :=
  let hits : ℚ := ((meaningWords.filter (fun w => clauseWords.contains w)).length : ℚ)
  let base : ℚ := hits / ((max meaningWords.length 1 : Nat) : ℚ)
  if 0 < base then base + base * (clauseWords.length : ℚ) / 10 else base

/-- Embeds `findBestVariableMatch(clause, variables)`: strictly-greater scores
win (ties keep the earlier variable); the best match is returned only when
its score reaches the 0.3 threshold. -/
def findBestVariableMatch (clause : String) (vars : List PropVar) :
    Option PropVar :=
  let clauseWords := jsSplitWs (fvmNormalize clause)
  let best := vars.foldl
    (fun (acc : Option PropVar × ℚ) v =>
      let score := fvmScore clauseWords (jsSplitWs (fvmNormalize v.meaning))
      if acc.2 < score then (some v, score) else acc)
    (none, 0)
  if (3 : ℚ) / 10 ≤ best.2 then best.1 else none

/-- Failures of `parseClause`: `cantMap c` is the thrown
`No se pudo mapear la cláusula "c" …`; `fuel` is the fuel
artifact, unreachable for the fuel chosen by `parseClause`. -/
inductive ClauseErr where
  | cantMap (clause : String)
  | fuel
deriving DecidableEq, Repr

/-- One conjunction/disjunction attempt inside `parseClause`: match the
pattern, recursively parse the trimmed captures (exceptions propagate),
and combine when both results are truthy (nonempty); an untruthy result
falls through to the next attempt, mirroring the `if` guard of the source. -/
def parseClauseBinAttempt (parseRec : List Char → Except ClauseErr String)
    (sep : List Char) (glyph : String) (isNeg : Bool) (clause : List Char) :
    Except ClauseErr (Option String) :=
  match matchBinaryClause sep clause with
  | none => .ok none
  | some (l, r) =>
      match parseRec (jsTrimL l) with
      | .error e => .error e
      | .ok le =>
          match parseRec (jsTrimL r) with
          | .error e => .error e
          | .ok re =>
              if le ≠ "" ∧ re ≠ "" then
                .ok (some (if isNeg then "¬" ++ ("(" ++ le ++ glyph ++ re ++ ")")
                  else "(" ++ le ++ glyph ++ re ++ ")"))
              else .ok none

/-- Embeds `parseClause(clause, variables)`: strip a leading `no ` (remembering
the pending negation, and re-trimming as the source does), try the
conjunction pattern, then the disjunction pattern, then direct variable
matching; throw when nothing matches. -/
def parseClauseF (vars : List PropVar) : Nat → List Char → Except ClauseErr String
  | 0, _ => .error .fuel
  | fuel + 1, rawClause =>
      let isNeg : Bool := decide (rawClause.take 3 = "no ".data)
      let clause : List Char :=
        if rawClause.take 3 = "no ".data then jsTrimL (rawClause.drop 3)
        else rawClause
      match parseClauseBinAttempt (parseClauseF vars fuel) " y ".data " ∧ "
          isNeg clause with
      | .error e => .error e
      | .ok (some s) => .ok s
      | .ok none =>
          match parseClauseBinAttempt (parseClauseF vars fuel) " o ".data
              " ∨ " isNeg clause with
          | .error e => .error e
          | .ok (some s) => .ok s
          | .ok none =>
              match findBestVariableMatch (String.mk clause) vars with
              | some v => .ok (if isNeg then "¬" ++ v.symbol else v.symbol)
              | none => .error (.cantMap (String.mk clause))

/-- Embeds `parseClause` with its (always sufficient) fuel: each recursive call
runs on a strictly shorter capture. -/
def parseClause (vars : List PropVar) (clause : List Char) :
    Except ClauseErr String :=
  parseClauseF vars (clause.length + 1) clause

/-- Failures of `extractLogicalExpression`, one constructor per thrown
message:
`clauseParse e` = `Error al parsear las cláusulas: …` (a rethrown
`parseClause` exception), `badParsePero` / `badParseSingle` = the
`No se pudo parsear una de las cláusulas …` guards, `peroNotImplication` =
`La oración después de "pero" no sigue el formato "si … entonces …".`,
`noStructure` = `No se pudo identificar una estructura lógica válida …`. -/
inductive ExtractErr where
  | clauseParse (e : ClauseErr)
  | badParsePero
  | badParseSingle
  | peroNotImplication
  | noStructure
  | fuel
deriving DecidableEq, Repr

/-- The strip of a leading `pero` plus following whitespace from `sentences[i]`. -/
def stripPero (l : List Char) : List Char :=
  if l.take 4 = "pero".data then (l.drop 4).dropWhile isWsChar else l

/-- The single-implication emission `(A) → (C)` with its truthiness
guard. -/
def extractSingleImp (vars : List PropVar) (antecedent consequent : List Char) :
    Except ExtractErr String :=
  match parseClause vars antecedent with
  | .error e => .error (.clauseParse e)
  | .ok e1 =>
      match parseClause vars consequent with
      | .error e => .error (.clauseParse e)
      | .ok e2 =>
          if e1 ≠ "" ∧ e2 ≠ "" then .ok ("(" ++ e1 ++ ") → (" ++ e2 ++ ")")
          else .error .badParseSingle

/-- The chained-`pero` emission
`(A1) → (C1) ∧ (A2) → (C2)` — note: exactly this string, with parentheses
only around the four clause expressions, not around the two
implications. -/
def extractPeroImp (vars : List PropVar)
    (a1 c1 a2 c2 : List Char) : Except ExtractErr String :=
  match parseClause vars a1 with
  | .error e => .error (.clauseParse e)
  | .ok e1 =>
  match parseClause vars c1 with
  | .error e => .error (.clauseParse e)
  | .ok e2 =>
  match parseClause vars a2 with
  | .error e => .error (.clauseParse e)
  | .ok e3 =>
  match parseClause vars c2 with
  | .error e => .error (.clauseParse e)
  | .ok e4 =>
      if e1 ≠ "" ∧ e2 ≠ "" ∧ e3 ≠ "" ∧ e4 ≠ "" then
        .ok ("(" ++ e1 ++ ") → (" ++ e2 ++ ") ∧ (" ++ e3 ++ ") → (" ++ e4 ++ ")")
      else .error .badParsePero

/-- The sentence loop of `extractLogicalExpression`; consuming the `pero`
sentence skips it in the iteration, and a direct statement that fails to
parse is silently skipped (`catch { continue }`).  Every step consumes at
least one sentence, so the fuel supplied by `extractLoop` (list length
plus one) always suffices and the `fuel` error is unreachable. -/
def extractLoopF (vars : List PropVar) :
    Nat → List (List Char) → Except ExtractErr (List String)
  | 0, _ => .error .fuel
  | _ + 1, [] => .ok []
  | fuel + 1, s :: rest =>
      let sentence := jsTrimL s
      match matchImplication sentence with
      | some (a, c) =>
          let antecedent := jsTrimL a
          let consequent := jsTrimL c
          match rest with
          | next :: rest' =>
              if (jsTrimL next).take 4 = "pero".data then
                let nextSentence := jsTrimL (stripPero next)
                match matchImplication nextSentence with
                | some (a2, c2) =>
                    match extractPeroImp vars antecedent consequent
                        (jsTrimL a2) (jsTrimL c2) with
                    | .error e => .error e
                    | .ok raw =>
                        match extractLoopF vars fuel rest' with
                        | .error e => .error e
                        | .ok rels => .ok (raw :: rels)
                | none => .error .peroNotImplication
              else
                match extractSingleImp vars antecedent consequent with
                | .error e => .error e
                | .ok raw =>
                    match extractLoopF vars fuel (next :: rest') with
                    | .error e => .error e
                    | .ok rels => .ok (raw :: rels)
          | [] =>
              match extractSingleImp vars antecedent consequent with
              | .error e => .error e
              | .ok raw =>
                  match extractLoopF vars fuel [] with
                  | .error e => .error e
                  | .ok rels => .ok (raw :: rels)
      | none =>
          match parseClause vars sentence with
          | .error _ => extractLoopF vars fuel rest
          | .ok expr =>
              if expr ≠ "" then
                match extractLoopF vars fuel rest with
                | .error e => .error e
                | .ok rels => .ok (expr :: rels)
              else extractLoopF vars fuel rest

/-- The sentence loop with its (always sufficient) fuel. -/
def extractLoop (vars : List PropVar) (sentences : List (List Char)) :
    Except ExtractErr (List String) :=
  extractLoopF vars (sentences.length + 1) sentences

/-- Embeds `extractLogicalExpression(text, variables)`. -/
def extractLogicalExpression (text : String) (vars : List PropVar) :
    Except ExtractErr String :=
  let sentences := splitSentences (normalizeText text)
  match extractLoop vars sentences with
  | .error e => .error e
  | .ok rels =>
      if rels = [] then .error .noStructure
      else .ok (String.intercalate " ∧ " rels)

/-- Embeds `validateInput(text)`; `some message` is the `{valid:false}` result.
`text.length` counts UTF-16 units in JS and code points here — equal on
the repertoire of this program.  The `!text ||` falsy check coincides with the
empty-trim check for strings. -/
def validateInput (text : String) : Option String :=
  if (jsTrim text).data = [] then some "El texto no puede estar vacío."
  else if text.length < 10 then
    some "El texto debe tener al menos 10 caracteres."
  else if maxTextLength < text.length then
    some "El texto no debe exceder los 5000 caracteres."
  else none

/-- Embeds `validatePropositionVariables(variables)`: at least two, at most
`maxPropositions`, distinct symbols (`new Set(…).size === length`), and
each symbol matching `/^[a-z]$/` (the same test as `isVarTok`). -/
def validatePropositionVariables (vars : List PropVar) : Option String :=
  if vars.length < 2 then
    some "Debe proporcionar al menos dos proposiciones."
  else if maxPropositions < vars.length then
    some "No puede exceder el máximo de 20 proposiciones."
  else if ¬ (vars.map PropVar.symbol).Nodup then
    some "No puede haber símbolos de proposición duplicados."
  else if vars.any (fun v => !isVarTok v.symbol) then
    some "Los símbolos de proposición deben ser letras minúsculas (a-z)."
  else none

/-- The message string `parseExpression` stores in its `{valid:false}`
result: the two pre-checks return their messages directly; exceptions
thrown by `buildAST` are caught and wrapped with
`Error al analizar la expresión: `. -/
def renderParseErr : ParseErr → String
  | .emptyExpr => "La expresión lógica no puede estar vacía."
  | .unbalanced => "Paréntesis no balanceados en la expresión."
  | .unexpectedEnd =>
      "Error al analizar la expresión: Unexpected end of expression"
  | .missingClose =>
      "Error al analizar la expresión: Expected closing parenthesis"
  | .trailing t =>
      "Error al analizar la expresión: Unexpected token after expression: " ++ t
  | .unexpectedTok t =>
      "Error al analizar la expresión: Unexpected token: " ++ t
  | .fuel => "Error al analizar la expresión: fuel"

/-- A successful analysis (the nondeterministic `timestamp` field is
omitted; `vars` is the field named `variables` in the source, a Lean keyword). -/
structure AnalysisResult where
  originalText : String
  vars : List PropVar
  expression : String
  expressionType : String
  truthTable : List Row
  ast : Expression

/-- What `analyze` hands back to its caller when no exception escapes:
either the `{error: message}` failure value or the result object. -/
inductive AnalyzeOutcome where
  | errorValue (message : String)
  | success (result : AnalysisResult)

/-- An exception escaping `analyze` uncaught: one thrown by
`extractLogicalExpression` (which `analyze` does not wrap in any
try/catch) or by `evaluateExpression` inside `generateTruthTable`. -/
inductive JsError where
  | extract (e : ExtractErr)
  | eval (message : String)
deriving DecidableEq, Repr

/-- Embeds `analyze(text, variables)` with the instance state of the analyzer
(`this.variableMeanings`, an insertion-ordered map) passed explicitly:
the result is the pair of what the call produces (`Except.error` = an
uncaught exception) and the state after the call.  The state is cleared
and repopulated from `variables` only after a successful parse, exactly
as in the source. -/
def analyze (st : List (String × String)) (text : String)
    (vars : List PropVar) :
    Except JsError AnalyzeOutcome × List (String × String) :=
  match validateInput text with
  | some m => (.ok (.errorValue m), st)
  | none =>
  match validatePropositionVariables vars with
  | some m => (.ok (.errorValue m), st)
  | none =>
  match extractLogicalExpression text vars with
  | .error e => (.error (.extract e), st)
  | .ok expression =>
  match parseExpression expression with
  | .error pe => (.ok (.errorValue (renderParseErr pe)), st)
  | .ok exprAst =>
      let st' := vars.map (fun v => (v.symbol, v.meaning))
      match generateTruthTable exprAst vars with
      | .error m => (.error (.eval m), st')
      | .ok truthTable =>
          let allTrue := truthTable.all (fun row => row.result == true)
          let allFalse := truthTable.all (fun row => row.result == false)
          let expressionType :=
            if allTrue then "Tautología"
            else if allFalse then "Contradicción"
            else "Contingencia"
          (.ok (.success
            ⟨text, vars, expression, expressionType, truthTable, exprAst⟩), st')

/-- The five glyph substitutions of `expressionToNaturalLanguage`; the
replacement texts contain no operator glyphs, so the five
sequential global replaces equal this single character-wise expansion. -/
def glyphExpand (c : Char) : List Char :=
  if c = '→' then " implica que ".data
  else if c = '∧' then " y ".data
  else if c = '∨' then " o ".data
  else if c = '¬' then "no ".data
  else if c = '↔' then " si y solo si ".data
  else [c]

/-- Embeds `\b` after the matched symbol (whose last character is a word
character): holds before a non-word character or at the end. -/
def boundaryEndOk (l : List Char) : Bool :=
  match l with
  | [] => true
  | d :: _ => !isWordChar d

/-- Embeds `\b` before the match position: holds at the start or after a
non-word character. -/
def boundaryBeforeOk (prev : Option Char) : Bool :=
  match prev with
  | none => true
  | some p => !isWordChar p

/-- Global replace of the word-bounded symbol regex built by `new RegExp` by
`repl` (symbols are single lowercase letters, i.e. word characters);
after a match the scan resumes after the matched text of the subject. -/
def replaceWordAux (sym repl : List Char) :
    Nat → Option Char → List Char → List Char
  | 0, _, l => l
  | _ + 1, _, [] => []
  | fuel + 1, prev, c :: rest =>
      if (c :: rest).take sym.length = sym ∧
          boundaryBeforeOk prev = true ∧
          boundaryEndOk ((c :: rest).drop sym.length) = true then
        repl ++ replaceWordAux sym repl fuel (sym.getLast? <|> some c)
          ((c :: rest).drop sym.length)
      else c :: replaceWordAux sym repl fuel (some c) rest

/-- The `for (const [symbol, meaning] of this.variableMeanings)` loop:
each symbol is replaced (word-bounded) by `"meaning"` in the string
produced so far, in insertion order of the map. -/
def applyMeaningsAux : List (String × String) → List Char → List Char
  | [], l => l
  | (sym, meaning) :: rest, l =>
      applyMeaningsAux rest
        (replaceWordAux sym.data ("\"" ++ meaning ++ "\"").data
          (l.length + 1) none l)

/-- Embeds `expressionToNaturalLanguage(expression)` with the instance state
(`this.variableMeanings`) passed explicitly. -/
def expressionToNaturalLanguage (st : List (String × String))
    (expression : String) : String :=
  String.mk (jsTrimL (applyMeaningsAux st (expression.data.flatMap glyphExpand)))

/-- Projection used to state concrete facts about `analyze` results (the
result record contains assignment functions, so whole-record equations are
not decidable). -/
def outcomeExpr : Except JsError AnalyzeOutcome → Option String
  | .ok (.success r) => some r.expression
  | _ => none

/-- Projection: the classification string of a successful analysis. -/
def outcomeType : Except JsError AnalyzeOutcome → Option String
  | .ok (.success r) => some r.expressionType
  | _ => none

/-- Projection: the truth table of a successful analysis, with the
assignment of each row sampled at the two given symbols. -/
def outcomeTable (p q : String) :
    Except JsError AnalyzeOutcome → Option (List (Option Bool × Option Bool × Bool))
  | .ok (.success r) =>
      some (r.truthTable.map (fun row => (row.values p, row.values q, row.result)))
  | _ => none

/-- C7 (scenario 5): the text `Si llueve entonces el suelo se moja.` with
variables `p = llueve`, `q = el suelo se moja` extracts to `(p) → (q)`,
and the full `analyze` pipeline classifies it as a contingency
(`Contingencia`), its truth table — rows in canonical order `ff, ft, tf,
tt` — being false only at `p = true, q = false`. -/
theorem C7_scenario5 :
    extractLogicalExpression "Si llueve entonces el suelo se moja."
      [⟨"p", "llueve"⟩, ⟨"q", "el suelo se moja"⟩] = .ok "(p) → (q)" ∧
    outcomeExpr (analyze [] "Si llueve entonces el suelo se moja."
      [⟨"p", "llueve"⟩, ⟨"q", "el suelo se moja"⟩]).1 = some "(p) → (q)" ∧
    outcomeType (analyze [] "Si llueve entonces el suelo se moja."
      [⟨"p", "llueve"⟩, ⟨"q", "el suelo se moja"⟩]).1 = some "Contingencia" ∧
    outcomeTable "p" "q" (analyze [] "Si llueve entonces el suelo se moja."
      [⟨"p", "llueve"⟩, ⟨"q", "el suelo se moja"⟩]).1 =
      some [(some false, some false, true), (some false, some true, true),
        (some true, some false, false), (some true, some true, true)] :=
  ⟨by decide, by decide, by decide, by decide⟩

/-- C5 (evidence for the code bug): on a two-sentence text whose second
sentence starts with `pero`, the extractor consumes both sentences but
emits the raw string `(p) → (q) ∧ (r) → (s)` — with parentheses only
around the four clause expressions, not around the two implications — and
under the precedence of the engine itself that string parses as
`(p → (q ∧ r)) → s`, with `→` (not the claimed `∧`) as the top-level
operator. -/
theorem C5_pero_missing_parens :
    extractLogicalExpression
      "Si llueve entonces el suelo se moja. Pero si nieva entonces hace frio."
      [⟨"p", "llueve"⟩, ⟨"q", "el suelo se moja"⟩, ⟨"r", "nieva"⟩,
        ⟨"s", "hace frio"⟩] = .ok "(p) → (q) ∧ (r) → (s)" ∧
    parseExpression "(p) → (q) ∧ (r) → (s)" =
      .ok ⟨"(p) → (q) ∧ (r) → (s)",
        .binary "→"
          (.binary "→" (.var "p") (.binary "∧" (.var "q") (.var "r")))
          (.var "s")⟩ :=
  ⟨by decide, by decide⟩

/-- C6 (evidence for the code bug): the verb-ending collapse never fires,
because the `normalize` helper of `findBestVariableMatch` strips diacritics *before*
running the word-final `irá` to `e` replacement — whose pattern still contains `á` (and
whose `\b` after the non-word `á` would additionally require a following
word character).  So `recibirá` normalizes to `recibira`, not `recibe`,
and against a variable meaning `recibe` the clause `recibirá` scores 0
and matches nothing, while the collapsed form the comment and the claim
promise (`recibe`) would match with score 1.1. -/
theorem C6_dead_verb_normalization :
    fvmNormalize "recibirá" = "recibira".data ∧
    findBestVariableMatch "recibirá" [⟨"x", "recibe"⟩] = none ∧
    findBestVariableMatch "recibe" [⟨"x", "recibe"⟩] = some ⟨"x", "recibe"⟩ :=
  ⟨by decide, by decide, by decide⟩

/-- C4 counterexample: on a valid-length text with no recognizable logical
structure, `extractLogicalExpression` throws, and `analyze` — which wraps
it in no try/catch — lets that exception escape to its caller instead of
returning a failure value. -/
theorem C4_counterexample :
    validateInput "xxxxxxxxxxx" = none ∧
    validatePropositionVariables [⟨"p", "a"⟩, ⟨"q", "b"⟩] = none ∧
    (analyze [] "xxxxxxxxxxx" [⟨"p", "a"⟩, ⟨"q", "b"⟩]).1 =
      .error (.extract .noStructure) :=
  ⟨rfl, rfl, rfl⟩

/-- C4 (amended): the pipeline is fail-fast — the first failing stage ends
the `analyze` call with later stages unexecuted and nothing retried — and
text-validation, variable-validation and parse failures are returned as
explicit failure values; but an extraction failure propagates out of
`analyze` as an uncaught exception (`Except.error`), not as a returned
failure value. -/
theorem C4_analyze_error_channels :
    (∀ (st : List (String × String)) (text : String) (vars : List PropVar) m,
      validateInput text = some m →
      analyze st text vars = (.ok (.errorValue m), st)) ∧
    (∀ (st : List (String × String)) (text : String) (vars : List PropVar) m,
      validateInput text = none →
      validatePropositionVariables vars = some m →
      analyze st text vars = (.ok (.errorValue m), st)) ∧
    (∀ (st : List (String × String)) (text : String) (vars : List PropVar) e,
      validateInput text = none →
      validatePropositionVariables vars = none →
      extractLogicalExpression text vars = .error e →
      analyze st text vars = (.error (.extract e), st)) ∧
    (∀ (st : List (String × String)) (text : String) (vars : List PropVar)
        (expr : String) (pe : ParseErr),
      validateInput text = none →
      validatePropositionVariables vars = none →
      extractLogicalExpression text vars = .ok expr →
      parseExpression expr = .error pe →
      analyze st text vars = (.ok (.errorValue (renderParseErr pe)), st)) := by
  refine ⟨?_, ?_, ?_, ?_⟩
  · intro st text vars m h1
    unfold analyze
    simp only [h1]
  · intro st text vars m h1 h2
    unfold analyze
    simp only [h1, h2]
  · intro st text vars e h1 h2 h3
    unfold analyze
    simp only [h1, h2, h3]
  · intro st text vars expr pe h1 h2 h3 h4
    unfold analyze
    simp only [h1, h2, h3, h4]

/-- Witness for C4 (amended) at concrete early-failure inputs. -/
theorem C4_amended_witness :
    validateInput "" = some "El texto no puede estar vacío." ∧
    analyze [] "" [] =
      (.ok (.errorValue "El texto no puede estar vacío."), []) ∧
    validateInput "xxxxxxxxxxx" = none ∧
    validatePropositionVariables [⟨"p", "a"⟩, ⟨"q", "b"⟩] = none ∧
    extractLogicalExpression "xxxxxxxxxxx" [⟨"p", "a"⟩, ⟨"q", "b"⟩] =
      .error .noStructure ∧
    analyze [] "xxxxxxxxxxx" [⟨"p", "a"⟩, ⟨"q", "b"⟩] =
      (.error (.extract .noStructure), []) :=
  ⟨rfl, C4_analyze_error_channels.1 [] "" [] _ rfl, rfl, rfl, rfl,
    C4_analyze_error_channels.2.2.1 [] "xxxxxxxxxxx" [⟨"p", "a"⟩, ⟨"q", "b"⟩]
      ExtractErr.noStructure rfl rfl rfl⟩

/-- C9 counterexample: `expressionToNaturalLanguage` reads the
analyzer-instance `variableMeanings` map, which each successful `analyze`
overwrites, so the same expression `"p"` renders differently depending on
which `analyze` call preceded it. -/
theorem C9_counterexample :
    expressionToNaturalLanguage
      (analyze [] "Si llueve entonces el suelo se moja."
        [⟨"p", "llueve"⟩, ⟨"q", "el suelo se moja"⟩]).2 "p" = "\"llueve\"" ∧
    expressionToNaturalLanguage
      (analyze [] "Si nieva entonces hace frio."
        [⟨"p", "nieva"⟩, ⟨"q", "hace frio"⟩]).2 "p" = "\"nieva\"" ∧
    ("\"llueve\"" : String) ≠ "\"nieva\"" :=
  ⟨by decide, by decide, by decide⟩

/-- C9 (amended): the variable-meaning lookup is analyzer-instance state
shared across analyses — after any `analyze` call the state is either
untouched (failure before a successful parse) or exactly the
symbol-to-meaning list of that call (last writer wins) — while the outcome of `analyze` itself
never reads that state, so the outcome is independent of whatever calls
preceded it; only `expressionToNaturalLanguage` is affected by the
carried-over state. -/
theorem C9_meanings_shared_state :
    (∀ (st : List (String × String)) (text : String) (vars : List PropVar)
        res st', analyze st text vars = (res, st') →
      st' = st ∨ st' = vars.map (fun v => (v.symbol, v.meaning))) ∧
    (∀ (st₁ st₂ : List (String × String)) (text : String)
        (vars : List PropVar),
      (analyze st₁ text vars).1 = (analyze st₂ text vars).1) := by
  constructor
  · intro st text vars res st' h
    unfold analyze at h
    cases h1 : validateInput text with
    | some m =>
        simp only [h1] at h
        injection h with h₁ h₂
        exact Or.inl h₂.symm
    | none =>
    simp only [h1] at h
    cases h2 : validatePropositionVariables vars with
    | some m =>
        simp only [h2] at h
        injection h with h₁ h₂
        exact Or.inl h₂.symm
    | none =>
    simp only [h2] at h
    cases h3 : extractLogicalExpression text vars with
    | error e =>
        simp only [h3] at h
        injection h with h₁ h₂
        exact Or.inl h₂.symm
    | ok expr =>
    simp only [h3] at h
    cases h4 : parseExpression expr with
    | error pe =>
        simp only [h4] at h
        injection h with h₁ h₂
        exact Or.inl h₂.symm
    | ok ea =>
    simp only [h4] at h
    cases h5 : generateTruthTable ea vars with
    | error m =>
        simp only [h5] at h
        injection h with h₁ h₂
        exact Or.inr h₂.symm
    | ok tt =>
        simp only [h5] at h
        injection h with h₁ h₂
        exact Or.inr h₂.symm
  · intro st₁ st₂ text vars
    unfold analyze
    cases h1 : validateInput text with
    | some m => simp only [h1]
    | none =>
    cases h2 : validatePropositionVariables vars with
    | some m => simp only [h1, h2]
    | none =>
    cases h3 : extractLogicalExpression text vars with
    | error e => simp only [h1, h2, h3]
    | ok expr =>
    cases h4 : parseExpression expr with
    | error pe => simp only [h1, h2, h3, h4]
    | ok ea =>
    cases h5 : generateTruthTable ea vars with
    | error m => simp only [h1, h2, h3, h4, h5]
    | ok tt => simp only [h1, h2, h3, h4, h5]

/-- Witness for C9 (amended) at a concrete early-failure call and a
concrete pair of prior states. -/
theorem C9_amended_witness :
    analyze [("a", "b")] "" [] =
      (.ok (.errorValue "El texto no puede estar vacío."), [("a", "b")]) ∧
    ([("a", "b")] = ([("a", "b")] : List (String × String)) ∨
      ([("a", "b")] : List (String × String)) =
        ([] : List PropVar).map (fun v => (v.symbol, v.meaning))) ∧
    (analyze [("a", "b")] "" []).1 = (analyze [] "" []).1 :=
  ⟨rfl,
    C9_meanings_shared_state.1 [("a", "b")] "" []
      (.ok (.errorValue "El texto no puede estar vacío.")) [("a", "b")] rfl,
    C9_meanings_shared_state.2 [("a", "b")] [] "" []⟩
